import Mathlib

set_option linter.unusedVariables false

namespace M2O

/-!
Shallow embedding of the mitre2owl sources (`owl.py`, `schema.py`).
Python strings are modelled as `List Char` (wrapped into `String` at the
interface); Python's Unicode whitespace (used by `str.strip` and the regex
class in a text pattern) is modelled by its ASCII/Latin-1 fragment; Python's
`str.upper` on a single character is modelled on ASCII letters.  Fallible
Python code (exceptions) is modelled with `Except`/`EStateM`.
-/

/-- Generic association-list lookup, mirroring Python `dict` lookup
(`dict` keys are unique, so first-match is the dict value). -/
def lookupA {κ α : Type} [DecidableEq κ] : List (κ × α) → κ → Option α
  | [], _ => none
  | p :: r, k => if p.1 = k then some p.2 else lookupA r k

/-- Python `dict` assignment `d[k] = v`: replaces the value in place when the
key is present, appends otherwise (insertion order preserved). -/
def dinsert {κ α : Type} [DecidableEq κ] (l : List (κ × α)) (k : κ) (v : α) :
    List (κ × α) :=
  if (lookupA l k).isSome then l.map (fun p => if p.1 = k then (k, v) else p)
  else l ++ [(k, v)]

/-- The apostrophe character. -/
def apos : Char := Char.ofNat 39

/-- ASCII/Latin-1 fragment of Python's whitespace (`str.strip`, regex class
with a space inside): space, tab, newline, carriage return, vertical tab,
form feed, the four separator controls, next-line and no-break space. -/
def isPySpace (c : Char) : Bool :=
  c == ' ' || c == '\t' || c == '\n' || c == '\r' || c == Char.ofNat 11 ||
  c == Char.ofNat 12 || c == Char.ofNat 28 || c == Char.ofNat 29 ||
  c == Char.ofNat 30 || c == Char.ofNat 31 || c == Char.ofNat 133 ||
  c == Char.ofNat 160

/-- The `DELIMITERS` character class of `owl.py`:
space, no-break space, newline, tab, comma, underscore and hyphen. -/
def isDelim (c : Char) : Bool :=
  c == ' ' || c == Char.ofNat 160 || c == '\n' || c == '\t' || c == ',' ||
  c == '_' || c == '-'

/-- Lower-to-upper ASCII letter table (model of `str.upper` on one char). -/
def upperMap : List (Char × Char) :=
  [('a', 'A'), ('b', 'B'), ('c', 'C'), ('d', 'D'), ('e', 'E'), ('f', 'F'),
   ('g', 'G'), ('h', 'H'), ('i', 'I'), ('j', 'J'), ('k', 'K'), ('l', 'L'),
   ('m', 'M'), ('n', 'N'), ('o', 'O'), ('p', 'P'), ('q', 'Q'), ('r', 'R'),
   ('s', 'S'), ('t', 'T'), ('u', 'U'), ('v', 'V'), ('w', 'W'), ('x', 'X'),
   ('y', 'Y'), ('z', 'Z')]

/-- Python `c.upper()` for a single character, modelled on ASCII letters. -/
def pyUpper (c : Char) : Char := (lookupA upperMap c).getD c

/-- Python `str.strip()` on a character list. -/
def pyStrip (s : List Char) : List Char :=
  ((s.dropWhile isPySpace).reverse.dropWhile isPySpace).reverse

/-- Scan for the closing parenthesis of `PAREN_REGEX`: the non-greedy `.*?`
cannot cross a newline, so the match closes at the first `)` provided no
newline comes first.  Returns the remainder after the `)`. -/
def scanClose : List Char → Option (List Char)
  | [] => none
  | c :: rest =>
    if c = ')' then some rest
    else if c = '\n' then none
    else scanClose rest

/-- Try to match `PAREN_REGEX` (`\s*\(.*?\)`) at the head of the string:
a whitespace run, then `(`, then the nearest newline-free `)`.  Returns the
remainder after the match. -/
def parenMatch (s : List Char) : Option (List Char) :=
  match s.dropWhile isPySpace with
  | c :: rest => if c = '(' then scanClose rest else none
  | [] => none

/-- Fueled left-to-right `PAREN_REGEX.sub('', s)` (the fuel is always the
string length at the top call; every match consumes at least one char). -/
def parenSubF : Nat → List Char → List Char
  | 0, s => s
  | _ + 1, [] => []
  | n + 1, c :: rest =>
    match parenMatch (c :: rest) with
    | some rem => parenSubF n rem
    | none => c :: parenSubF n rest

/-- `PAREN_REGEX.sub('', s)`: strip parenthetical asides. -/
def parenSub (s : List Char) : List Char := parenSubF s.length s

/-- Replace every occurrence of the character `k` by the padded word
`' ' ++ w ++ ' '` (one step of `_replace`). -/
def replaceChar (k : Char) (w : List Char) : List Char → List Char
  | [] => []
  | c :: rest =>
    if c = k then ' ' :: (w ++ ' ' :: replaceChar k w rest)
    else c :: replaceChar k w rest

/-- `_replace(string, replacements)` of `owl.py`: apply the single-character
replacements in table order, each substituted word padded with spaces. -/
def pyReplaceL (reps : List (Char × List Char)) (s : List Char) : List Char :=
  reps.foldl (fun acc p => replaceChar p.1 p.2 acc) s

/-- The `INNER_REPLACEMENTS` table of `owl.py`. -/
def innerReplacements : List (Char × List Char) :=
  [('/', "Slash".data), (':', "Colon".data)]

/-- The `REPLACEMENTS` table of `owl.py`, in source order. -/
def replacements : List (Char × List Char) :=
  [('#', "Sharp".data), ('+', "Plus".data), ('.', "Dot".data),
   ('\\', "Backslash".data), ('&', "And".data), (apos, []),
   ('/', "Or".data), (':', []), ('*', "Wildcard".data), ('=', "Equal".data),
   (Char.ofNat 34, []), ('%', "Percent".data), ('<', "Below".data),
   ('>', "Above".data), ('^', [])]

/-- Scan for the closing apostrophe of the quoted-segment regex
(`[^']*?` matches anything but an apostrophe, newlines included).
Returns the group content and the remainder after the closing quote. -/
def scanApos : List Char → Option (List Char × List Char)
  | [] => none
  | c :: rest =>
    if c = apos then some ([], rest)
    else match scanApos rest with
      | some (g, rem) => some (c :: g, rem)
      | none => none

/-- Try to match `:\s*'([^']*?)'` at the head of the string.  Returns the
quoted group and the remainder after the match. -/
def quoteMatch : List Char → Option (List Char × List Char)
  | [] => none
  | c :: rest =>
    if c = ':' then
      match rest.dropWhile isPySpace with
      | c2 :: rest2 => if c2 = apos then scanApos rest2 else none
      | [] => none
    else none

/-- Fueled left-to-right `re.sub` of the quoted-segment pattern, replacing a
match by `' ' ++ _replace(group, INNER_REPLACEMENTS) ++ ' '` (`_slug_match`). -/
def quotedSubF : Nat → List Char → List Char
  | 0, s => s
  | _ + 1, [] => []
  | n + 1, c :: rest =>
    match quoteMatch (c :: rest) with
    | some (g, rem) =>
      ' ' :: (pyReplaceL innerReplacements g ++ ' ' :: quotedSubF n rem)
    | none => c :: quotedSubF n rest

/-- The quoted-segment substitution pass of `slugify`. -/
def quotedSub (s : List Char) : List Char := quotedSubF s.length s

/-- Fueled `re.split('[ \xa0\n\t,_-]+', s)`: each maximal delimiter run is one
separator; a leading or trailing run yields an empty first or last token.
With zero fuel (only reachable for the empty string) the result is `[]`,
which the caller treats like Python's `['']` head (both fail the slug). -/
def splitDelimsF : Nat → List Char → List (List Char)
  | 0, _ => []
  | n + 1, s =>
    match s.dropWhile (fun c => !isDelim c) with
    | [] => [s.takeWhile (fun c => !isDelim c)]
    | _ :: rest2 =>
      s.takeWhile (fun c => !isDelim c) :: splitDelimsF n (rest2.dropWhile isDelim)

/-- Capitalize the first character of a word (`s[0].upper() + s[1:]`). -/
def capFirst : List Char → List Char
  | [] => []
  | c :: rest => pyUpper c :: rest

/-- The normalization pipeline of `slugify` before word splitting:
optional `@` removal (property role), parenthetical stripping, quoted-segment
substitution, then the `REPLACEMENTS` pass. -/
def preNorm (property_ : Bool) (s : List Char) : List Char :=
  pyReplaceL replacements
    (quotedSub (parenSub (if property_ then s.filter (fun c => c != '@') else s)))

/-- Final assembly of `slugify` from the split words: capitalize the first
word (raising, modelled as `none`, when it is empty), prepend `has` for the
property role then `ind` for the individual role, and append the remaining
nonempty words capitalized. -/
def slugAssemble (property_ individual : Bool) : List (List Char) → Option (List Char)
  | [] => none
  | [] :: _ => none
  | (a :: w') :: rest =>
    some (((if individual then "ind".data else []) ++
           (if property_ then "has".data else []) ++ (pyUpper a :: w')) ++
          ((rest.filter (fun x => !x.isEmpty)).map capFirst).flatten)

/-- `slugify` of `owl.py` on character lists.  Returns `none` exactly where
the Python function raises `IndexError` (empty first word). -/
def slugifyL (s : List Char) (property_ individual : Bool) : Option (List Char) :=
  slugAssemble property_ individual
    (splitDelimsF (pyStrip (preNorm property_ s)).length (pyStrip (preNorm property_ s)))

/-- `slugify(string, property_, individual)` of `owl.py`. -/
def slugify (s : String) (property_ individual : Bool) : Option String :=
  (slugifyL s.data property_ individual).map (fun l => ⟨l⟩)

/-- A character that heads an entry of the `REPLACEMENTS` table. -/
def isKey (c : Char) : Bool := (lookupA replacements c).isSome

/-- The owl-module configuration set by the driver (`__main__.py`):
`ID_ATTRIBUTES`, `NAME_ATTRIBUTES`, `TYPE_MAP` (module globals in `owl.py`,
assigned before any parse). -/
structure Config where
  idAttributes : List String
  nameAttributes : List String
  typeMap : List (String × String)

/-- The configuration installed by `__main__.main` before parsing. -/
def mainConfig : Config :=
  { idAttributes := ["ID", "seq"],
    nameAttributes := ["Name", "name", "Title", "Term", "Entry_Name"],
    typeMap := [("Attack_Pattern", "CAPEC"), ("Vulnerability", "CVE"),
                ("Weakness", "CWE")] }

mutual
/-- An assertion value: an OWL literal (class IRI and text value) or another
Individual.  (List-shaped values are only ever produced by callers outside
the core parse, so they are not modelled.) -/
inductive Val where
  | lit (cls : String) (value : String)
  | ind (i : Indiv)
/-- An OWL individual (`owl.Individual`).  The `ref` field is the allocation
index: Python object identity is modelled by a fresh counter, so reference
equality of two individuals is equality of their `ref`. -/
inductive Indiv where
  | mk (name : String) (id : Option String) (type_ : Option String)
       (slugBase : String) (annotations : List String) (ignore : Bool)
       (assertions : List HasA) (ref : Nat)
/-- An OWL assertion without its subject (`owl.Has`); the first component is
the attribute, the second the value. -/
inductive HasA where
  | mk (attr : String) (value : Val)
end

def HasA.attr : HasA → String
  | .mk a _ => a

def HasA.value : HasA → Val
  | .mk _ v => v

def Indiv.name : Indiv → String
  | .mk n _ _ _ _ _ _ _ => n

def Indiv.id : Indiv → Option String
  | .mk _ i _ _ _ _ _ _ => i

def Indiv.type_ : Indiv → Option String
  | .mk _ _ t _ _ _ _ _ => t

def Indiv.slugBase : Indiv → String
  | .mk _ _ _ b _ _ _ _ => b

def Indiv.annotations : Indiv → List String
  | .mk _ _ _ _ a _ _ _ => a

def Indiv.ignore : Indiv → Bool
  | .mk _ _ _ _ _ g _ _ => g

def Indiv.assertions : Indiv → List HasA
  | .mk _ _ _ _ _ _ a _ => a

def Indiv.ref : Indiv → Nat
  | .mk _ _ _ _ _ _ _ r => r

/-- `make_name(names, tag)` of `owl.py`: the first non-`None` candidate wins;
a literal contributes its value, an individual its name; otherwise the tag. -/
def makeName : List (Option Val) → String → String
  | [], tag => tag
  | none :: rest, tag => makeName rest tag
  | some (.lit _ v) :: _, _ => v
  | some (.ind i) :: _, _ => i.name

/-- The id scan of `Individual.__init__`: the last assertion whose attribute
is in `ID_ATTRIBUTES` provides `self.id` (each match overwrites). -/
def lastIdVal (idAttributes : List String) (asserts : List HasA) : Option Val :=
  asserts.foldl
    (fun acc a => if a.attr ∈ idAttributes then some a.value else acc) none

/-- The name scan of `Individual.__init__` for one name attribute: the last
matching assertion wins; assertions matching an ID attribute are skipped
(the `continue`). -/
def lastNameVal (idAttributes : List String) (asserts : List HasA)
    (attr : String) : Option Val :=
  asserts.foldl
    (fun acc a =>
      if a.attr ∈ idAttributes then acc
      else if a.attr = attr then some a.value else acc) none

/-- Error conditions of the embedded code.  `emptyLiteral` is
`EmptyLiteralException`; `keyErr` is a Python `KeyError` (unknown name or
vocabulary value); `typeConflict` is the `_merge` type-safety assertion;
`assertErr` covers the other `assert` statements; `attrErr` is a Python
`AttributeError` (e.g. `.value`/`.assertions` on the wrong object);
`fuelErr` is recursion-fuel exhaustion (only reachable for recursion deeper
than the supplied fuel, where Python would recurse further). -/
inductive Err where
  | emptyLiteral
  | keyErr
  | typeConflict
  | assertErr
  | attrErr
  | fuelErr
deriving DecidableEq

/-- A prelude entry: a Class declaration or an enumeration Individual. -/
inductive PEntry where
  | classD (name : String) (annotations : List String)
  | indD (i : Indiv)

/-- The mutable state threaded through parsing: the allocation counter for
Individual identity, the schema prelude, the set of `marked` type objects
(by arena index), and the ghost log of which type object appended its Class
declaration (one entry per append, in order). -/
structure PState where
  fresh : Nat
  prelude : List PEntry
  marks : List Nat
  classLog : List Nat

/-- The parse monad: state plus exceptions, with Python semantics (state
mutations performed before an exception survive it). -/
abbrev M := EStateM Err PState

/-- Allocate a fresh Individual reference. -/
def allocRef : M Nat := fun st =>
  .ok st.fresh { st with fresh := st.fresh + 1 }

/-- Append an entry to the schema prelude. -/
def appendPrelude (e : PEntry) : M Unit := fun st =>
  .ok () { st with prelude := st.prelude ++ [e] }

/-- `Individual.__init__`: scan the assertions for the id and display name,
then build the individual (`slug_base` is the computed name).  Accessing
`.value` of an Individual-valued id assertion is a Python `AttributeError`. -/
def mkIndividualM (cfg : Config) (name : String) (asserts : List HasA)
    (type_ : Option String) (annotations : List String) (ignore : Bool) :
    M Indiv := do
  let idv ← match lastIdVal cfg.idAttributes asserts with
    | none => pure none
    | some (.lit _ v) => pure (some v)
    | some (.ind _) => throw .attrErr
  let nm := makeName (cfg.nameAttributes.map (lastNameVal cfg.idAttributes asserts))
    name
  let r ← allocRef
  pure (.mk nm idv type_ nm annotations ignore asserts r)

/-- `Individual.slug`: with an id, `TYPE_MAP.get(type) + '-' + id` (a `None`
type renders as the string `None` in the f-string); otherwise the
individual-role slug of `(type or '') + slug_base`. -/
def indivSlug (cfg : Config) (i : Indiv) : Option String :=
  match i.id with
  | some v =>
    some ((match i.type_ with
           | some t => (lookupA cfg.typeMap t).getD t
           | none => "None") ++ "-" ++ v)
  | none => slugify ((i.type_.getD "") ++ i.slugBase) false true

/-- A type reference: a namespace-qualified name resolved lazily through the
registry, or an inline type object.  Inline objects live in the schema's
arena and are referenced by index, so Python object identity (and Python
`==` on `.type` fields: string equality for names, identity for objects) is
index equality. -/
inductive TypeRef where
  | tname (s : String)
  | inline (i : Nat)
deriving DecidableEq

/-- xs:attribute (`schema.Attribute`): name, required flag, type. -/
structure AttributeObj where
  name : String
  required : Bool
  type_ : TypeRef

/-- xs:element (`schema.Element`): optional name, annotations, type. -/
structure ElementObj where
  name : Option String
  annotations : List String
  type_ : TypeRef

/-- xs:any (`schema.Any`): declared namespace and occurrence bounds. -/
structure AnyObj where
  ns : Option String
  minOccurs : Option String
  maxOccurs : Option String

/-- `add_namespace(name, namespace)` of `schema.py`. -/
def addNamespace (name : Option String) (ns : String) : Option String :=
  name.map (fun n => "\x7b" ++ ns ++ "\x7d" ++ n)

/-- The singleton name table built by `Element.__init__`. -/
def elementNames (e : ElementObj) (ns : String) :
    List (Option String × ElementObj) :=
  [(addNamespace e.name ns, e)]

mutual
/-- xs:sequence (`schema.Sequence`): named children (elements then
sub-choices) or exclusively a wildcard; the merged tag-dispatch table; the
computed `alone` flag. -/
inductive SeqObj where
  | mk (elements : List ElementObj) (choices : List ChoiceObj)
       (anyO : Option AnyObj) (alone : Bool)
       (names : List (Option String × ElementObj))
/-- xs:choice (`schema.Choice`): alternative branches (sequences then
elements) merged into one tag-dispatch table; never alone. -/
inductive ChoiceObj where
  | mk (sequences : List SeqObj) (elements : List ElementObj)
       (names : List (Option String × ElementObj)) (alone : Bool)
end

def SeqObj.elements : SeqObj → List ElementObj
  | .mk e _ _ _ _ => e

def SeqObj.choices : SeqObj → List ChoiceObj
  | .mk _ c _ _ _ => c

def SeqObj.anyO : SeqObj → Option AnyObj
  | .mk _ _ a _ _ => a

def SeqObj.alone : SeqObj → Bool
  | .mk _ _ _ al _ => al

def SeqObj.names : SeqObj → List (Option String × ElementObj)
  | .mk _ _ _ _ n => n

def ChoiceObj.sequences : ChoiceObj → List SeqObj
  | .mk s _ _ _ => s

def ChoiceObj.elements : ChoiceObj → List ElementObj
  | .mk _ e _ _ => e

def ChoiceObj.names : ChoiceObj → List (Option String × ElementObj)
  | .mk _ _ n _ => n

def ChoiceObj.alone : ChoiceObj → Bool
  | .mk _ _ _ al => al

/-- xs:extension (`schema.Extension`): base type plus attribute extensions;
`alone` is set to `False` at construction. -/
structure ExtObj where
  base : TypeRef
  attributes : List AttributeObj
  alone : Bool

/-- `Extension.__init__` after child extraction. -/
def mkExtension (base : TypeRef) (attributes : List AttributeObj) : ExtObj :=
  { base := base, attributes := attributes, alone := false }

/-- The content model of a complex type: sequence, extension or choice. -/
inductive CTContent where
  | seqC (s : SeqObj)
  | extC (e : ExtObj)
  | choiceC (c : ChoiceObj)

def contentAlone : CTContent → Bool
  | .seqC s => s.alone
  | .extC e => e.alone
  | .choiceC c => c.alone

/-- xs:complexType (`schema.ComplexType`): attributes, optional content
model, the constructor-computed `alone` flag.  The `marked` flag lives in
the parse state (`PState.marks`), keyed by the object's arena index. -/
structure CTObj where
  name : Option String
  annotations : List String
  attributes : List AttributeObj
  content : Option CTContent
  alone : Bool

/-- `ComplexType.__init__` after child extraction: `alone` is
`len(attributes) == 1` without content, else `content.alone and
len(attributes) <= 1`. -/
def mkCTObj (name : Option String) (annotations : List String)
    (attributes : List AttributeObj) (content : Option CTContent) : CTObj :=
  { name := name, annotations := annotations, attributes := attributes,
    content := content,
    alone := match content with
      | none => attributes.length == 1
      | some c => contentAlone c && decide (attributes.length ≤ 1) }

/-- xs:enumeration (`schema.Enumeration`): value and annotations. -/
structure EnumerationObj where
  value : String
  annotations : List String

/-- xs:restriction (`schema.Restriction`): base, the value-to-enumeration
table, and the owning type name. -/
structure RestrictionObj where
  base : Option TypeRef
  enumerations : List (String × EnumerationObj)
  name : Option String

/-- xs:simpleType (`schema.SimpleType`): name, annotations, restriction;
its `alone` is always `False`. -/
structure STObj where
  name : Option String
  annotations : List String
  restriction : RestrictionObj

/-- A compiled type object held in the schema arena. -/
inductive TypeObj where
  | complex (ct : CTObj)
  | simple (st : STObj)

/-- A registry entry: the built-in string-like literal class or a compiled
type object by arena index.  Only the string-like builtins (`xs:string`,
`xs:token`, `xs:anyURI`) are modelled; the date and integer literal classes
are not exercised by the claims. -/
inductive RegEntry where
  | strLit
  | arenaIdx (i : Nat)

/-- A compiled schema (`schema.Schema` after `__init__`): target namespace,
type registry, root element table, the arena of type objects, the name
overrides and the raw pass-through namespaces. -/
structure SchemaObj where
  targetNs : String
  types : List (String × RegEntry)
  elements : List (String × ElementObj)
  arena : List TypeObj
  nameOverrides : List (String × String)
  rawNamespaces : List String

/-- One step of `_merge(first, other)`: a tag already bound in `first` must
map to an equal type (the type-safety assertion), otherwise the binding is
added. -/
def mergeStep (first : List (Option String × ElementObj))
    (dic : List (Option String × ElementObj)) (p : Option String × ElementObj) :
    Except Err (List (Option String × ElementObj)) :=
  match lookupA first p.1 with
  | some e0 =>
    if e0.type_ = p.2.type_ then .ok dic else .error .typeConflict
  | none => .ok (dinsert dic p.1 p.2)

/-- `_merge(first, other)` of `schema.py`. -/
def mergeNames (first other : List (Option String × ElementObj)) :
    Except Err (List (Option String × ElementObj)) :=
  other.foldlM (mergeStep first) first

/-- Common tail of `Sequence.__init__`: build the name table (element dict
comprehension, later duplicates overwriting, then `_merge` of each
sub-choice's table) and compute `alone = len(children) <= 1`, children
being elements then choices. -/
def mkSequenceAux (elements : List ElementObj) (choices : List ChoiceObj)
    (anyO : Option AnyObj) (ns : String) : Except Err SeqObj :=
  match choices.foldlM (fun acc c => mergeNames acc c.names)
      (elements.foldl (fun acc e => dinsert acc (addNamespace e.name ns) e) []) with
  | .ok names =>
    .ok (.mk elements choices anyO
      (decide (elements.length + choices.length ≤ 1)) names)
  | .error e => .error e

/-- `Sequence.__init__` after child extraction: at most one wildcard
(assert), and a wildcard excludes named children (assert).  Note the
source's `self.alone = True` in the wildcard branch is dead: it is
overwritten by `self.alone = len(self.children) <= 1` (which is also true
there, the children list being empty). -/
def mkSequence (elements : List ElementObj) (choices : List ChoiceObj) :
    List AnyObj → String → Except Err SeqObj
  | [], ns => mkSequenceAux elements choices none ns
  | [a], ns =>
    if elements.length = 0 ∧ choices.length = 0 then
      mkSequenceAux elements choices (some a) ns
    else .error .assertErr
  | _ :: _ :: _, _ => .error .assertErr

/-- `Choice.__init__` after child extraction: merge the branch tables
(sequences then elements) into one dispatch table, starting from `{}`. -/
def mkChoice (sequences : List SeqObj) (elements : List ElementObj)
    (ns : String) : Except Err ChoiceObj :=
  match (sequences.map SeqObj.names ++
      elements.map (fun e => elementNames e ns)).foldlM mergeNames [] with
  | .ok names => .ok (.mk sequences elements names false)
  | .error e => .error e

/-- Keys of an association list are pairwise distinct (a Python dict). -/
def nodupKeys {κ α : Type} (l : List (κ × α)) : Prop := (l.map Prod.fst).Nodup

/-- All bindings contributed by a Choice's branches (sequences then
elements), before merging. -/
def choiceBindings (sequences : List SeqObj) (elements : List ElementObj)
    (ns : String) : List (Option String × ElementObj) :=
  (sequences.map SeqObj.names ++
    elements.map (fun e => elementNames e ns)).flatten

/-- An XML document node (lxml element): tag, attributes, children, text,
source line. -/
inductive Node where
  | mk (tag : String) (attrs : List (String × String)) (children : List Node)
       (text : Option String) (sourceline : Nat)

def Node.tag : Node → String
  | .mk t _ _ _ _ => t

def Node.attrs : Node → List (String × String)
  | .mk _ a _ _ _ => a

def Node.children : Node → List Node
  | .mk _ _ c _ _ => c

def Node.text : Node → Option String
  | .mk _ _ _ t _ => t

def Node.sourceline : Node → Nat
  | .mk _ _ _ _ s => s

/-- Python `str.strip` at the String interface. -/
def pyStripStr (s : String) : String := ⟨pyStrip s.data⟩

/-- A literal-parse input: an attribute's raw string value or a node
(Python duck-typing in `get_string`). -/
inductive ParseInput where
  | str (s : String)
  | node (n : Node)

/-- `get_string(value)` of `schema.py`: a string is stripped; a node whose
text is absent raises `EmptyLiteralException`; otherwise the node text is
stripped (even when it strips to the empty string). -/
def getStringE : ParseInput → Except Err String
  | .str s => .ok (pyStripStr s)
  | .node n =>
    match n.text with
    | none => .error .emptyLiteral
    | some t => .ok (pyStripStr t)

/-- Fueled rendering of a node, abstracting lxml's html serializer (the
exact text shape is irrelevant to the claims). -/
def serializeF : Nat → Node → String
  | 0, _ => ""
  | n + 1, nd =>
    "<" ++ nd.tag ++ ">" ++ (nd.text.getD "") ++
      ((nd.children.map (serializeF n)).foldl (fun a b => a ++ b) "") ++
      "</" ++ nd.tag ++ ">"

/-- The namespace of a qualified tag (`etree.QName(node).namespace`). -/
def nsOf (tag : String) : Option String :=
  match tag.data with
  | c :: rest =>
    if c = Char.ofNat 123 then
      some ⟨rest.takeWhile (fun d => !(d == Char.ofNat 125))⟩
    else none
  | [] => none

/-- The local part of a qualified tag (`xpathutil.Name`). -/
def localName (tag : String) : String :=
  match tag.data with
  | c :: rest =>
    if c = Char.ofNat 123 then
      ⟨(rest.dropWhile (fun d => !(d == Char.ofNat 125))).drop 1⟩
    else tag
  | [] => tag

/-- `Schema.get_name`: the node's local tag name, possibly overridden. -/
def getName (sc : SchemaObj) (node : Node) : String :=
  (lookupA sc.nameOverrides (localName node.tag)).getD (localName node.tag)

/-- `Schema.resolve`: a name is looked up in the registry (`KeyError` when
absent); an object resolves to itself. -/
def resolveT (sc : SchemaObj) : TypeRef → Except Err RegEntry
  | .tname s =>
    match lookupA sc.types s with
    | some e => .ok e
    | none => .error .keyErr
  | .inline i => .ok (.arenaIdx i)

def arenaGet (sc : SchemaObj) (i : Nat) : Option TypeObj := sc.arena[i]?

/-- The `alone` flag of the arena object at index `i` (simple types are
never alone). -/
def aloneAt (sc : SchemaObj) (i : Nat) : Bool :=
  match arenaGet sc i with
  | some (.complex ct) => ct.alone
  | _ => false

/-- The `alone` flag seen through a registry entry: the literal classes
carry `alone = False` (the `Literal.alone` class attribute). -/
def entryAlone (sc : SchemaObj) : RegEntry → Bool
  | .strLit => false
  | .arenaIdx i => aloneAt sc i

/-- Lift a pure `Except` computation into the parse monad. -/
def liftE {α : Type} : Except Err α → M α
  | .ok a => pure a
  | .error e => throw e

/-- The class IRI of `xs:string` literals. -/
def xsStringCls : String := "http://www.w3.org/2001/XMLSchema#string"

/-- A parsed value as returned by a registry type's `parse`: an Individual
(complex/simple types) or a Literal (builtin literal classes). -/
inductive Parsed where
  | ind (i : Indiv)
  | lit (cls : String) (value : String)

def Parsed.toVal : Parsed → Val
  | .ind i => .ind i
  | .lit c v => .lit c v

/-- `String(value)` (the builtin string literal class): `get_string`, wrap. -/
def litParse (input : ParseInput) : M Parsed := do
  let v ← liftE (getStringE input)
  pure (.lit xsStringCls v)

/-- `Enumeration.get(name, ignore)`: a fresh `Individual(value, type_=name,
annotations=annotations, ignore=ignore)` — a new object on every call. -/
def enumGetM (cfg : Config) (e : EnumerationObj) (name : Option String)
    (ignore : Bool) : M Indiv :=
  mkIndividualM cfg e.value [] name e.annotations ignore

/-- `Restriction.parse`: `get_string` the node, look the value up in the
enumeration table (`KeyError` = unknown vocabulary value, fatal for the
document), and build the individual via `Enumeration.get` (ignore left at
its default `True`). -/
def restrictionParseM (cfg : Config) (r : RestrictionObj)
    (input : ParseInput) : M Parsed := do
  let s ← liftE (getStringE input)
  match lookupA r.enumerations s with
  | none => throw .keyErr
  | some e => do
    let i ← enumGetM cfg e r.name true
    pure (.ind i)

/-- One enumeration child of `Restriction.__init__`: build the fresh
`ignore=False` Individual, append it to the prelude, record the table
entry (dict assignment). -/
def restrictionInitStep (cfg : Config) (name : Option String)
    (acc : List (String × EnumerationObj)) (e : EnumerationObj) :
    M (List (String × EnumerationObj)) := do
  let p ← enumGetM cfg e name false
  appendPrelude (.indD p)
  pure (dinsert acc e.value e)

/-- `Restriction.__init__`: build the enumeration table and append one
fresh `ignore=False` Individual per enumeration child to the prelude. -/
def restrictionInitM (cfg : Config) (base : Option TypeRef)
    (name : Option String) (enums : List EnumerationObj) :
    M RestrictionObj := do
  let table ← enums.foldlM (restrictionInitStep cfg name) []
  pure ⟨base, table, name⟩

/-- The `marked` guard of `ComplexType.parse`: on the first parse of an
unmarked type object, append the Class declaration to the prelude unless
the type is alone, and set the mark; later parses skip.  The ghost
`classLog` records the appending object's arena index. -/
def markCT (aidx : Nat) (alone : Bool) (typeName : String)
    (annotations : List String) : M Unit := fun st =>
  if aidx ∈ st.marks then .ok () st
  else .ok () { st with
    marks := aidx :: st.marks,
    prelude := if alone then st.prelude
               else st.prelude ++ [.classD typeName annotations],
    classLog := if alone then st.classLog else st.classLog ++ [aidx] }

/-- The `marked` guard of `SimpleType.parse`: only named simple types mark
and append. -/
def markST (aidx : Nat) (name : Option String) (annotations : List String) :
    M Unit := fun st =>
  match name with
  | none => .ok () st
  | some n =>
    if aidx ∈ st.marks then .ok () st
    else .ok () { st with
      marks := aidx :: st.marks,
      prelude := st.prelude ++ [.classD n annotations],
      classLog := st.classLog ++ [aidx] }

/-- `Schema.raw(node)`: within a pass-through namespace the node serializes
to a raw string literal (class `ns#localname`, value built through the
`String` literal class, hence stripped); otherwise `assert False`. -/
def rawString (sc : SchemaObj) (fuel : Nat) (node : Node) :
    Except Err Parsed :=
  match nsOf node.tag with
  | some ns =>
    if ns ∈ sc.rawNamespaces then
      .ok (.lit (ns ++ "#" ++ localName node.tag)
        (pyStripStr (serializeF fuel node)))
    else .error .assertErr
  | none => .error .assertErr

/-- The XHTML div wrapper built by `schema.div` for wildcard text capture. -/
def xhtmlDiv (blob : String) : Node :=
  .mk "\x7bhttp://www.w3.org/1999/xhtml\x7ddiv" [] [] (some blob) 0

/-- The open-recursion knot: the type of `schema.resolve(...).parse`. -/
abbrev EP := RegEntry → ParseInput → M Parsed

/-- The element-parse result: a single wrapped assertion or a spliced list. -/
inductive ElemResult where
  | has (h : HasA)
  | spliced (l : List HasA)

/-- `Attribute.parse`: resolve the attribute type and parse the raw string
value into one assertion. -/
def attributeParseW (ep : EP) (sc : SchemaObj) (a : AttributeObj)
    (v : String) : M HasA := do
  let entry ← liftE (resolveT sc a.type_)
  let p ← ep entry (.str v)
  pure (.mk a.name p.toVal)

/-- The attribute loop of `ComplexType.parse`/`Extension.parse`: attributes
present on the node are parsed in declaration order. -/
def attrsFoldW (ep : EP) (sc : SchemaObj) (attrs : List AttributeObj)
    (nodeAttrs : List (String × String)) : M (List HasA) :=
  attrs.foldlM
    (fun acc a =>
      match lookupA nodeAttrs a.name with
      | some v => do
        let h ← attributeParseW ep sc a v
        pure (acc ++ [h])
      | none => pure acc)
    []

/-- `Element.parse` given the resolved-entry parser: parse the node through
the element's type; if the resolved type is alone, splice the child's
assertions for the caller, renaming `@@value` placeholders after this
element; otherwise wrap the whole parsed result as one named assertion.
(`parsed.assertions` on a literal would be a Python `AttributeError`;
literal classes are never alone.) -/
def elementParseW (ep : EP) (cfg : Config) (sc : SchemaObj) (el : ElementObj)
    (node : Node) : M ElemResult := do
  let entry ← liftE (resolveT sc el.type_)
  let parsed ← ep entry (.node node)
  if entryAlone sc entry then
    match parsed with
    | .ind i =>
      pure (.spliced (i.assertions.foldl
        (fun acc a =>
          acc ++ [if a.attr = "@@value" then .mk (getName sc node) a.value
                  else a]) []))
    | .lit _ _ => throw .attrErr
  else
    pure (.has (.mk (getName sc node) parsed.toVal))

/-- The dispatch loop shared by `Sequence.parse` and `Choice.parse`: each
child node is dispatched by tag through the merged name table (`KeyError`
on an unknown tag) and list-shaped results are flattened. -/
def childrenFoldW (ep : EP) (cfg : Config) (sc : SchemaObj)
    (names : List (Option String × ElementObj)) (children : List Node) :
    M (List HasA) :=
  children.foldlM
    (fun acc child =>
      match lookupA names (some child.tag) with
      | none => throw .keyErr
      | some el => do
        let r ← elementParseW ep cfg sc el child
        match r with
        | .has h => pure (acc ++ [h])
        | .spliced l => pure (acc ++ l))
    []

/-- `Any.parse`: check the captured namespace, then resolve the tag through
the registry and parse, falling back to the raw pass-through literal when a
`KeyError` escapes; the value becomes a `@@value` placeholder. -/
def anyParseW (ep : EP) (fuel : Nat) (sc : SchemaObj) (a : AnyObj)
    (node : Node) : M HasA := do
  if nsOf node.tag = a.ns then
    let v ← tryCatch
      (do
        let entry ← liftE (resolveT sc (.tname node.tag))
        ep entry (.node node))
      (fun e =>
        match e with
        | .keyErr => liftE (rawString sc fuel node)
        | _ => throw e)
    pure (.mk "@@value" v.toVal)
  else throw .assertErr

/-- `Sequence.parse`: with a wildcard, concatenate the node text and the
serialized children into one blob and parse it through the wildcard;
otherwise dispatch the children through the name table. -/
def seqParseW (ep : EP) (fuel : Nat) (cfg : Config) (sc : SchemaObj)
    (sq : SeqObj) (node : Node) : M (List HasA) :=
  match sq.anyO with
  | none => childrenFoldW ep cfg sc sq.names node.children
  | some a => do
    let blob := (node.text.getD "") ++
      ((node.children.map (serializeF fuel)).foldl (fun x y => x ++ y) "")
    let h ← anyParseW ep fuel sc a (xhtmlDiv blob)
    pure [h]

/-- `Choice.parse`: the same dispatch loop over the choice's merged table. -/
def choiceParseW (ep : EP) (cfg : Config) (sc : SchemaObj) (c : ChoiceObj)
    (node : Node) : M (List HasA) :=
  childrenFoldW ep cfg sc c.names node.children

/-- `Extension.parse`: parse the declared attributes, then the base type on
the same node; a bare literal base becomes the `@@value` placeholder, an
individual base contributes its assertions; an `EmptyLiteralException`
escaping the base parse is swallowed (treated as no base value). -/
def extParseW (ep : EP) (sc : SchemaObj) (ext : ExtObj) (node : Node) :
    M (List HasA) := do
  let asserts ← attrsFoldW ep sc ext.attributes node.attrs
  let more ← tryCatch
    (do
      let entry ← liftE (resolveT sc ext.base)
      let parsed ← ep entry (.node node)
      match parsed with
      | .lit c v => pure [HasA.mk "@@value" (.lit c v)]
      | .ind i => pure i.assertions)
    (fun e =>
      match e with
      | .emptyLiteral => pure []
      | _ => throw e)
  pure (asserts ++ more)

/-- `ComplexType.parse` content dispatch. -/
def contentParseW (ep : EP) (fuel : Nat) (cfg : Config) (sc : SchemaObj) :
    CTContent → Node → M (List HasA)
  | .seqC sq, node => seqParseW ep fuel cfg sc sq node
  | .extC e, node => extParseW ep sc e node
  | .choiceC c, node => choiceParseW ep cfg sc c node

/-- `ComplexType.parse` given the resolved-entry parser: run the `marked`
guard (Class declaration unless alone), parse the attributes present on the
node, parse the content model, and build the Individual named
`{type}_{sourceline}`.  A string input is a Python `AttributeError`
(`.attrib` on `str`). -/
def ctParseW (ep : EP) (fuel : Nat) (cfg : Config) (sc : SchemaObj)
    (aidx : Nat) (input : ParseInput) : M Indiv :=
  match input with
  | .str _ => throw .attrErr
  | .node node =>
    match arenaGet sc aidx with
    | some (.complex ct) => do
      markCT aidx ct.alone (getName sc node) ct.annotations
      let as1 ← attrsFoldW ep sc ct.attributes node.attrs
      let as2 ← match ct.content with
        | none => pure []
        | some c => contentParseW ep fuel cfg sc c node
      mkIndividualM cfg (getName sc node ++ "_" ++ toString node.sourceline)
        (as1 ++ as2) (some (getName sc node)) [] false
    | _ => throw .keyErr

/-- `SimpleType.parse` by arena index: run the `marked` guard for named
simple types, then parse through the restriction (which does not recurse). -/
def stParseW (cfg : Config) (sc : SchemaObj) (aidx : Nat)
    (input : ParseInput) : M Parsed :=
  match arenaGet sc aidx with
  | some (.simple st) => do
    markST aidx st.name st.annotations
    restrictionParseM cfg st.restriction input
  | _ => throw .keyErr

/-- The fueled dispatch `schema.resolve(...).parse(...)`: a builtin literal
class parses the value directly; an arena object dispatches to the
complex-type or simple-type parser.  The fuel bounds the recursion depth
(Python recurses without bound; `fuelErr` is unreachable for fuel exceeding
the document nesting depth plus the schema's extension chains). -/
def entryParse : Nat → Config → SchemaObj → RegEntry → ParseInput → M Parsed
  | 0, _, _, _, _ => throw .fuelErr
  | _ + 1, _, _, .strLit, input => litParse input
  | n + 1, cfg, sc, .arenaIdx i, input =>
    match arenaGet sc i with
    | some (.complex _) => do
      let ind ← ctParseW (entryParse n cfg sc) n cfg sc i input
      pure (.ind ind)
    | some (.simple _) => stParseW cfg sc i input
    | none => throw .keyErr

def ctParse (n : Nat) (cfg : Config) (sc : SchemaObj) (aidx : Nat)
    (input : ParseInput) : M Indiv :=
  ctParseW (entryParse n cfg sc) n cfg sc aidx input

def elementParse (n : Nat) (cfg : Config) (sc : SchemaObj) (el : ElementObj)
    (node : Node) : M ElemResult :=
  elementParseW (entryParse n cfg sc) cfg sc el node

def choiceParse (n : Nat) (cfg : Config) (sc : SchemaObj) (c : ChoiceObj)
    (node : Node) : M (List HasA) :=
  choiceParseW (entryParse n cfg sc) cfg sc c node

def seqParse (n : Nat) (cfg : Config) (sc : SchemaObj) (sq : SeqObj)
    (node : Node) : M (List HasA) :=
  seqParseW (entryParse n cfg sc) n cfg sc sq node

def extParse (n : Nat) (cfg : Config) (sc : SchemaObj) (ext : ExtObj)
    (node : Node) : M (List HasA) :=
  extParseW (entryParse n cfg sc) sc ext node

/-- A document-parse output entry: a prelude declaration or a top value. -/
inductive OutE where
  | pre (e : PEntry)
  | val (v : Val)

/-- `Schema.parse`: look up the root element by tag (`KeyError` if absent),
parse it, reduce the result to its underlying value(s), and return
`self.prelude + values`. -/
def schemaParse (n : Nat) (cfg : Config) (sc : SchemaObj) (doc : Node) :
    M (List OutE) :=
  match lookupA sc.elements doc.tag with
  | none => throw .keyErr
  | some el => do
    let r ← elementParse n cfg sc el doc
    let st ← get
    let values : List Val := match r with
      | .spliced l => l.map (fun h => h.value)
      | .has h => [h.value]
    pure (st.prelude.map OutE.pre ++ values.map OutE.val)

/-- Any number of instance parses against one compiled schema. -/
def parseDocs (n : Nat) (cfg : Config) (sc : SchemaObj) (docs : List Node) :
    M Unit :=
  docs.foldlM (fun _ d => do
    let _ ← schemaParse n cfg sc d
    pure ()) ()

/-- The initial parse state of a fresh run. -/
def st0 : PState := ⟨0, [], [], []⟩

/-- The qualified name of `xs:string`. -/
def xsdString : String := "\x7bhttp://www.w3.org/2001/XMLSchema\x7dstring"

/-- The pre-registered literal types (`DEFAULT_TYPES`), restricted to the
string-like entries (see `RegEntry`). -/
def defaultTypes : List (String × RegEntry) :=
  [(xsdString, .strLit),
   ("\x7bhttp://www.w3.org/2001/XMLSchema\x7dtoken", .strLit),
   ("\x7bhttp://www.w3.org/2001/XMLSchema\x7danyURI", .strLit)]

/-- The minimal C3 complex type: one required string attribute `id`, no
content model (hence `alone`). -/
def ctItemLower : CTObj :=
  mkCTObj none [] [⟨"id", true, .tname xsdString⟩] none

/-- The minimal C3 schema with the attribute spelled `id` as the claim
states. -/
def scItemLower : SchemaObj :=
  { targetNs := "urn:test",
    types := defaultTypes,
    elements := [("\x7burn:test\x7dItem", ⟨some "Item", [], .inline 0⟩)],
    arena := [.complex ctItemLower],
    nameOverrides := [],
    rawNamespaces := ["http://www.w3.org/1999/xhtml"] }

/-- The C3 document `<Item id="42"/>`. -/
def itemDocLower : Node := .mk "\x7burn:test\x7dItem" [("id", "42")] [] none 1

/-- The same minimal complex type with the attribute spelled `ID` (the first
entry of the configured `ID_ATTRIBUTES`). -/
def ctItemID : CTObj :=
  mkCTObj none [] [⟨"ID", true, .tname xsdString⟩] none

/-- The minimal schema with the `ID` attribute. -/
def scItemID : SchemaObj :=
  { targetNs := "urn:test",
    types := defaultTypes,
    elements := [("\x7burn:test\x7dItem", ⟨some "Item", [], .inline 0⟩)],
    arena := [.complex ctItemID],
    nameOverrides := [],
    rawNamespaces := ["http://www.w3.org/1999/xhtml"] }

/-- The document `<Item ID="42"/>`. -/
def itemDocID : Node := .mk "\x7burn:test\x7dItem" [("ID", "42")] [] none 1

/-- An extension with string base and one optional string attribute. -/
def extString : ExtObj :=
  mkExtension (.tname xsdString) [⟨"x", false, .tname xsdString⟩]

/-- A node with an attribute but no text content. -/
def emptyNodeX : Node := .mk "\x7burn:test\x7dE" [("x", "7")] [] none 3

/-- An element bound to the builtin string type. -/
def elString : ElementObj := ⟨some "E", [], .tname xsdString⟩

/-- A node whose text is present but blank. -/
def blankNode : Node := .mk "t" [] [] (some " ") 1

/-- The state component of a parse result (Python exceptions leave the
mutations performed before the raise in place). -/
def stateOf {α : Type} : EStateM.Result Err PState α → PState
  | .ok _ s => s
  | .error _ s => s

/-- The step invariant of one parse computation: marks only grow; a marked
type object never appends again; any type object appends its Class at most
once more, and only while becoming marked; an `alone` complex type never
appends. -/
def StepOK (sc : SchemaObj) (st st2 : PState) : Prop :=
  (∀ i ∈ st.marks, i ∈ st2.marks) ∧
  ∀ id : Nat,
    (id ∈ st.marks → st2.classLog.count id = st.classLog.count id) ∧
    st2.classLog.count id ≤ st.classLog.count id + 1 ∧
    (st.classLog.count id < st2.classLog.count id → id ∈ st2.marks) ∧
    (aloneAt sc id = true → st2.classLog.count id = st.classLog.count id)

/-- A parse computation is tame: every run satisfies the step invariant and
never raises the type-conflict assertion. -/
def Tame {α : Type} (sc : SchemaObj) (m : M α) : Prop :=
  ∀ st : PState, StepOK sc st (stateOf (m st)) ∧
    ∀ st2 : PState, ¬ m st = .error .typeConflict st2

def elA1 : ElementObj := ⟨some "A", [], .tname "T1"⟩

def elA2 : ElementObj := ⟨some "A", [], .tname "T2"⟩

theorem lookupA_mem {κ α : Type} [DecidableEq κ] :
    ∀ {l : List (κ × α)} {k : κ} {v : α}, lookupA l k = some v → (k, v) ∈ l := by
  intro l
  induction l with
  | nil => intro k v h; simp [lookupA] at h
  | cons p r ih =>
    intro k v h
    unfold lookupA at h
    by_cases hk : p.1 = k
    · rw [if_pos hk] at h
      cases h
      subst hk
      exact List.mem_cons_self p r
    · rw [if_neg hk] at h
      exact List.mem_cons_of_mem _ (ih h)

theorem lookupA_eq_none {κ α : Type} [DecidableEq κ] :
    ∀ {l : List (κ × α)} {k : κ}, (∀ p ∈ l, k ≠ p.1) → lookupA l k = none := by
  intro l
  induction l with
  | nil => intro k _; rfl
  | cons p r ih =>
    intro k h
    unfold lookupA
    rw [if_neg fun e => h p (List.mem_cons_self p r) e.symm]
    exact ih fun q hq => h q (List.mem_cons_of_mem _ hq)

theorem mem_of_mem_takeWhile {α : Type} {p : α → Bool} :
    ∀ {s : List α} {c : α}, c ∈ s.takeWhile p → c ∈ s := by
  intro s
  induction s with
  | nil => intro c h; simp [List.takeWhile] at h
  | cons a r ih =>
    intro c h
    rw [List.takeWhile_cons] at h
    by_cases hp : p a = true
    · rw [if_pos hp] at h
      rcases List.mem_cons.mp h with h | h
      · exact h ▸ List.mem_cons_self a r
      · exact List.mem_cons_of_mem _ (ih h)
    · rw [if_neg hp] at h
      cases h

theorem pred_of_mem_takeWhile {α : Type} {p : α → Bool} :
    ∀ {s : List α} {c : α}, c ∈ s.takeWhile p → p c = true := by
  intro s
  induction s with
  | nil => intro c h; simp [List.takeWhile] at h
  | cons a r ih =>
    intro c h
    rw [List.takeWhile_cons] at h
    by_cases hp : p a = true
    · rw [if_pos hp] at h
      rcases List.mem_cons.mp h with h | h
      · exact h ▸ hp
      · exact ih h
    · rw [if_neg hp] at h
      cases h

theorem mem_of_mem_dropWhile {α : Type} {p : α → Bool} :
    ∀ {s : List α} {c : α}, c ∈ s.dropWhile p → c ∈ s := by
  intro s
  induction s with
  | nil => intro c h; simp [List.dropWhile] at h
  | cons a r ih =>
    intro c h
    rw [List.dropWhile_cons] at h
    by_cases hp : p a = true
    · rw [if_pos hp] at h
      exact List.mem_cons_of_mem _ (ih h)
    · rw [if_neg hp] at h
      exact h

theorem takeWhile_of_all {α : Type} {p : α → Bool} :
    ∀ {s : List α}, (∀ c ∈ s, p c = true) → s.takeWhile p = s := by
  intro s
  induction s with
  | nil => intro _; rfl
  | cons a r ih =>
    intro h
    rw [List.takeWhile_cons, if_pos (h a (List.mem_cons_self a r)),
      ih fun c hc => h c (List.mem_cons_of_mem _ hc)]

theorem dropWhile_of_all {α : Type} {p : α → Bool} :
    ∀ {s : List α}, (∀ c ∈ s, p c = true) → s.dropWhile p = [] := by
  intro s
  induction s with
  | nil => intro _; rfl
  | cons a r ih =>
    intro h
    rw [List.dropWhile_cons, if_pos (h a (List.mem_cons_self a r))]
    exact ih fun c hc => h c (List.mem_cons_of_mem _ hc)

theorem dropWhile_of_none {α : Type} {p : α → Bool} :
    ∀ {s : List α}, (∀ c ∈ s, p c = false) → s.dropWhile p = s := by
  intro s
  cases s with
  | nil => intro _; rfl
  | cons a r =>
    intro h
    rw [List.dropWhile_cons,
      if_neg (by rw [h a (List.mem_cons_self a r)]; exact Bool.false_ne_true)]

theorem mem_of_mem_pyStrip {s : List Char} {c : Char} (h : c ∈ pyStrip s) :
    c ∈ s := by
  unfold pyStrip at h
  rw [List.mem_reverse] at h
  have h2 := mem_of_mem_dropWhile h
  rw [List.mem_reverse] at h2
  exact mem_of_mem_dropWhile h2

theorem pyStrip_of_no_space {s : List Char}
    (h : ∀ c ∈ s, isPySpace c = false) : pyStrip s = s := by
  unfold pyStrip
  rw [dropWhile_of_none h,
    dropWhile_of_none fun c hc => h c (List.mem_reverse.mp hc), List.reverse_reverse]

theorem mem_splitDelimsF :
    ∀ {n : Nat} {s w : List Char} {c : Char}, w ∈ splitDelimsF n s → c ∈ w →
      c ∈ s ∧ isDelim c = false := by
  intro n
  induction n with
  | zero => intro s w c hw _; simp [splitDelimsF] at hw
  | succ n ih =>
    intro s w c hw hc
    unfold splitDelimsF at hw
    rcases hd : s.dropWhile (fun c => !isDelim c) with _ | ⟨d, rest2⟩
    · rw [hd] at hw
      rcases List.mem_singleton.mp hw
      refine ⟨mem_of_mem_takeWhile hc, ?_⟩
      have := pred_of_mem_takeWhile hc
      simpa using this
    · rw [hd] at hw
      rcases List.mem_cons.mp hw with hw | hw
      · subst hw
        refine ⟨mem_of_mem_takeWhile hc, ?_⟩
        have := pred_of_mem_takeWhile hc
        simpa using this
      · have h2 := ih hw hc
        refine ⟨?_, h2.2⟩
        have h3 : c ∈ d :: rest2 :=
          List.mem_cons_of_mem _ (mem_of_mem_dropWhile h2.1)
        rw [← hd] at h3
        exact mem_of_mem_dropWhile h3

theorem mem_replaceChar {k : Char} {w : List Char} :
    ∀ {s : List Char} {c : Char}, c ∈ replaceChar k w s →
      (c ∈ s ∧ c ≠ k) ∨ c = ' ' ∨ c ∈ w := by
  intro s
  induction s with
  | nil => intro c h; simp [replaceChar] at h
  | cons a r ih =>
    intro c h
    unfold replaceChar at h
    by_cases ha : a = k
    · rw [if_pos ha] at h
      rcases List.mem_cons.mp h with h | h
      · exact Or.inr (Or.inl h)
      · rcases List.mem_append.mp h with h | h
        · exact Or.inr (Or.inr h)
        · rcases List.mem_cons.mp h with h | h
          · exact Or.inr (Or.inl h)
          · rcases ih h with h | h
            · exact Or.inl ⟨List.mem_cons_of_mem _ h.1, h.2⟩
            · exact Or.inr h
    · rw [if_neg ha] at h
      rcases List.mem_cons.mp h with h | h
      · exact Or.inl ⟨h ▸ List.mem_cons_self a r, h ▸ ha⟩
      · rcases ih h with h | h
        · exact Or.inl ⟨List.mem_cons_of_mem _ h.1, h.2⟩
        · exact Or.inr h

theorem mem_pyReplaceL {reps : List (Char × List Char)} :
    ∀ {s : List Char} {c : Char},
      (∀ p ∈ reps, ∀ d ∈ p.2, d.isAlpha = true) → c ∈ pyReplaceL reps s →
      (c ∈ s ∧ ∀ p ∈ reps, c ≠ p.1) ∨ c.isAlpha = true ∨ c = ' ' := by
  induction reps with
  | nil =>
    intro s c _ h
    exact Or.inl ⟨h, by intro p hp; cases hp⟩
  | cons q rest ih =>
    intro s c hv h
    have h2 := ih (fun p hp => hv p (List.mem_cons_of_mem _ hp))
      (s := replaceChar q.1 q.2 s) h
    rcases h2 with ⟨h2, h3⟩ | h2
    · rcases mem_replaceChar h2 with h4 | h4 | h4
      · refine Or.inl ⟨h4.1, ?_⟩
        intro p hp
        rcases List.mem_cons.mp hp with hp | hp
        · exact hp ▸ h4.2
        · exact h3 p hp
      · exact Or.inr (Or.inr h4)
      · exact Or.inr (Or.inl (hv q (List.mem_cons_self q rest) c h4))
    · exact Or.inr h2

theorem replacements_words_alpha :
    ∀ p ∈ replacements, ∀ d ∈ p.2, d.isAlpha = true := by decide

theorem replacements_keys_spec :
    ∀ p ∈ replacements, p.1.isAlpha = false ∧ p.1 ≠ ' ' ∧ isKey p.1 = true := by
  decide

theorem isKey_exists {c : Char} (h : isKey c = true) :
    ∃ w, (c, w) ∈ replacements := by
  unfold isKey at h
  rcases hl : lookupA replacements c with _ | w
  · rw [hl] at h; simp at h
  · exact ⟨w, lookupA_mem hl⟩

theorem alpha_isKey_false {c : Char} (h : c.isAlpha = true) : isKey c = false := by
  rcases hk : isKey c with _ | _
  · rfl
  · rcases isKey_exists hk with ⟨w, hw⟩
    have := (replacements_keys_spec (c, w) hw).1
    rw [h] at this
    cases this

theorem key_free_of_pyReplaceL {s : List Char} {c : Char}
    (h : c ∈ pyReplaceL replacements s) : isKey c = false := by
  rcases mem_pyReplaceL replacements_words_alpha h with ⟨_, h2⟩ | h2 | h2
  · rcases hk : isKey c with _ | _
    · rfl
    · rcases isKey_exists hk with ⟨w, hw⟩
      exact absurd rfl (h2 (c, w) hw)
  · exact alpha_isKey_false h2
  · subst h2; decide

theorem upperMap_range :
    ∀ p ∈ upperMap, isDelim p.2 = false ∧ isKey p.2 = false ∧
      isPySpace p.2 = false ∧ p.2 ≠ '(' ∧ lookupA upperMap p.2 = none := by
  decide

theorem pyUpper_cases (c : Char) : pyUpper c = c ∨ (c, pyUpper c) ∈ upperMap := by
  unfold pyUpper
  rcases hl : lookupA upperMap c with _ | u
  · exact Or.inl rfl
  · exact Or.inr (lookupA_mem hl)

theorem pyUpper_of_lookup_none {c : Char} (h : lookupA upperMap c = none) :
    pyUpper c = c := by
  unfold pyUpper
  rw [h]
  rfl

theorem pyUpper_idem (c : Char) : pyUpper (pyUpper c) = pyUpper c := by
  rcases pyUpper_cases c with h | h
  · rw [h]
    exact h
  · exact pyUpper_of_lookup_none (upperMap_range _ h).2.2.2.2

theorem pyUpper_delim {c : Char} (h : isDelim c = false) :
    isDelim (pyUpper c) = false := by
  rcases pyUpper_cases c with h2 | h2
  · rw [h2]; exact h
  · exact (upperMap_range _ h2).1

theorem pyUpper_key {c : Char} (h : isKey c = false) :
    isKey (pyUpper c) = false := by
  rcases pyUpper_cases c with h2 | h2
  · rw [h2]; exact h
  · exact (upperMap_range _ h2).2.1

theorem parenMatch_none {s : List Char} (h : ∀ c ∈ s, ¬ c = '(') :
    parenMatch s = none := by
  unfold parenMatch
  rcases hd : s.dropWhile isPySpace with _ | ⟨c, rest⟩
  · rfl
  · have hc : c ∈ s := mem_of_mem_dropWhile (hd ▸ List.mem_cons_self c rest)
    simp only [if_neg (h c hc)]

set_option maxHeartbeats 1000000 in
theorem parenSubF_cons (n : Nat) (c : Char) (rest : List Char) :
    parenSubF (n + 1) (c :: rest) =
      match parenMatch (c :: rest) with
      | some rem => parenSubF n rem
      | none => c :: parenSubF n rest := rfl

theorem parenSubF_id :
    ∀ {n : Nat} {s : List Char}, (∀ c ∈ s, ¬ c = '(') → parenSubF n s = s := by
  intro n
  induction n with
  | zero => intro s _; rfl
  | succ n ih =>
    intro s h
    cases s with
    | nil => rfl
    | cons c rest =>
      rw [parenSubF_cons, parenMatch_none h]
      show c :: parenSubF n rest = c :: rest
      rw [ih fun d hd => h d (List.mem_cons_of_mem _ hd)]

theorem quoteMatch_none {s : List Char} (h : ∀ c ∈ s, ¬ c = ':') :
    quoteMatch s = none := by
  cases s with
  | nil => rfl
  | cons c rest =>
    unfold quoteMatch
    simp only [if_neg (h c (List.mem_cons_self c rest))]

theorem quotedSubF_id :
    ∀ {n : Nat} {s : List Char}, (∀ c ∈ s, ¬ c = ':') → quotedSubF n s = s := by
  intro n
  induction n with
  | zero => intro s _; rfl
  | succ n ih =>
    intro s h
    cases s with
    | nil => rfl
    | cons c rest =>
      unfold quotedSubF
      rw [quoteMatch_none h]
      rw [ih fun d hd => h d (List.mem_cons_of_mem _ hd)]

theorem replaceChar_id {k : Char} {w : List Char} :
    ∀ {s : List Char}, (∀ c ∈ s, ¬ c = k) → replaceChar k w s = s := by
  intro s
  induction s with
  | nil => intro _; rfl
  | cons a r ih =>
    intro h
    unfold replaceChar
    rw [if_neg (h a (List.mem_cons_self a r))]
    rw [ih fun d hd => h d (List.mem_cons_of_mem _ hd)]

theorem pyReplaceL_id :
    ∀ {reps : List (Char × List Char)} {s : List Char},
      (∀ p ∈ reps, ∀ c ∈ s, ¬ c = p.1) → pyReplaceL reps s = s := by
  intro reps
  induction reps with
  | nil => intro s _; rfl
  | cons q rest ih =>
    intro s h
    unfold pyReplaceL
    rw [List.foldl_cons]
    rw [replaceChar_id (h q (List.mem_cons_self q rest))]
    exact ih fun p hp => h p (List.mem_cons_of_mem _ hp)

theorem splitDelimsF_single {n : Nat} {s : List Char} (hn : ¬ n = 0)
    (hs : ¬ s = []) (h : ∀ c ∈ s, isDelim c = false) :
    splitDelimsF n s = [s] := by
  cases n with
  | zero => exact absurd rfl hn
  | succ n =>
    have hall : ∀ c ∈ s, (fun c => !isDelim c) c = true := by
      intro c hc
      simp [h c hc]
    unfold splitDelimsF
    rw [dropWhile_of_all hall, takeWhile_of_all hall]

theorem slugifyL_plain_shape {s t : List Char}
    (h : slugifyL s false false = some t) :
    ∃ a w' rest,
      splitDelimsF (pyStrip (preNorm false s)).length (pyStrip (preNorm false s)) =
        (a :: w') :: rest ∧
      t = pyUpper a :: (w' ++
        ((rest.filter (fun x => !x.isEmpty)).map capFirst).flatten) := by
  unfold slugifyL at h
  rcases hsp : splitDelimsF (pyStrip (preNorm false s)).length
      (pyStrip (preNorm false s)) with _ | ⟨w, rest⟩
  · rw [hsp] at h
    cases h
  · rw [hsp] at h
    rcases w with _ | ⟨a, w'⟩
    · cases h
    · refine ⟨a, w', rest, rfl, ?_⟩
      simp only [slugAssemble, Bool.false_eq_true, if_false,
        List.nil_append, List.cons_append] at h
      exact (Option.some.inj h).symm

theorem slug_plain_chars {s t : List Char}
    (h : slugifyL s false false = some t) :
    ∀ c ∈ t, isDelim c = false ∧ isKey c = false := by
  rcases slugifyL_plain_shape h with ⟨a, w', rest, hsp, ht⟩
  have token_char : ∀ w'' ∈ (a :: w') :: rest, ∀ c ∈ w'',
      isDelim c = false ∧ isKey c = false := by
    intro w'' hw c hc
    have hm := mem_splitDelimsF (hsp ▸ hw) hc
    exact ⟨hm.2, key_free_of_pyReplaceL (mem_of_mem_pyStrip hm.1)⟩
  intro c hc
  rw [ht] at hc
  rcases List.mem_cons.mp hc with hc | hc
  · subst hc
    have ha := token_char (a :: w') (List.mem_cons_self _ _) a
      (List.mem_cons_self a w')
    exact ⟨pyUpper_delim ha.1, pyUpper_key ha.2⟩
  · rcases List.mem_append.mp hc with hc | hc
    · exact token_char (a :: w') (List.mem_cons_self _ _) c
        (List.mem_cons_of_mem _ hc)
    · rw [List.mem_flatten] at hc
      rcases hc with ⟨l, hl, hc⟩
      rw [List.mem_map] at hl
      rcases hl with ⟨w'', hw, hcap⟩
      have hw2 : w'' ∈ rest := (List.mem_filter.mp hw).1
      cases w'' with
      | nil => rw [← hcap] at hc; cases hc
      | cons b tl =>
        rw [← hcap] at hc
        rcases List.mem_cons.mp hc with hc | hc
        · subst hc
          have hb := token_char (b :: tl) (List.mem_cons_of_mem _ hw2) b
            (List.mem_cons_self b tl)
          exact ⟨pyUpper_delim hb.1, pyUpper_key hb.2⟩
        · exact token_char (b :: tl) (List.mem_cons_of_mem _ hw2) c
            (List.mem_cons_of_mem _ hc)

theorem slugifyL_plain_idem {s t : List Char}
    (h : slugifyL s false false = some t)
    (hp : ∀ c ∈ t, ¬ c = '(' ∧ isPySpace c = false) :
    slugifyL t false false = some t := by
  have hchars := slug_plain_chars h
  rcases slugifyL_plain_shape h with ⟨a, w', rest, hsp, ht⟩
  have h1 : parenSub t = t := parenSubF_id fun c hc => (hp c hc).1
  have h2 : quotedSub t = t := by
    refine quotedSubF_id fun c hc he => ?_
    have := (hchars c hc).2
    rw [he] at this
    exact absurd this (by decide)
  have h3 : pyReplaceL replacements t = t := by
    refine pyReplaceL_id fun p hmem c hc he => ?_
    have hk := (hchars c hc).2
    rw [he] at hk
    rw [(replacements_keys_spec p hmem).2.2] at hk
    cases hk
  have h4 : pyStrip t = t := pyStrip_of_no_space fun c hc => (hp c hc).2
  have hpre : preNorm false t = t := by
    unfold preNorm
    simp only [Bool.false_eq_true, if_false]
    rw [h1, h2, h3]
  have hone : splitDelimsF t.length t = [t] := by
    refine splitDelimsF_single ?_ ?_ fun c hc => (hchars c hc).1
    · rw [ht]
      simp
    · rw [ht]
      simp
  unfold slugifyL
  rw [hpre, h4, hone, ht]
  simp only [slugAssemble, Bool.false_eq_true, if_false, List.nil_append,
    List.filter_nil, List.map_nil, List.flatten_nil, List.append_nil,
    pyUpper_idem, List.cons_append]

/-- C1 (amended): the slug function is deterministic (a pure function of the
string and the role), and idempotent only in the restricted form: for the
plain role, re-applying `slugify` to an output containing no `(` character
and no whitespace outside the delimiter set returns it unchanged.  (For the
property and individual roles re-application prepends the `has`/`ind` prefix
again, so idempotence fails there; a plain-role output containing `(` can
change or fail on re-application.) -/
theorem C1_slugify_deterministic_and_plain_idem :
    (∀ (s : String) (p i : Bool), slugify s p i = slugify s p i) ∧
    (∀ s t : String, slugify s false false = some t →
      (∀ c ∈ t.data, ¬ c = '(' ∧ isPySpace c = false) →
      slugify t false false = some t) := by
  refine ⟨fun _ _ _ => rfl, fun s t h hp => ?_⟩
  unfold slugify at h ⊢
  rcases hl : slugifyL s.data false false with _ | l
  · rw [hl] at h
    cases h
  · rw [hl] at h
    simp only [Option.map] at h
    have ht : (⟨l⟩ : String) = t := Option.some.inj h
    have hld : l = t.data := by rw [← ht]
    rw [slugifyL_plain_idem (hld ▸ hl) hp]
    simp only [Option.map]

/-- C1 witness: a concrete plain-role instance of the idempotence theorem. -/
theorem C1_witness :
    slugify "hello world" false false = some "HelloWorld" ∧
    slugify "HelloWorld" false false = some "HelloWorld" :=
  ⟨by decide,
   C1_slugify_deterministic_and_plain_idem.2 "hello world" "HelloWorld"
     (by decide) (by decide)⟩

/-- C1 counterexample: `slugify` is not idempotent for the property role:
the output `hasA` maps to `hasHasA` on re-application. -/
theorem C1_counterexample :
    slugify "a" true false = some "hasA" ∧
    slugify "hasA" true false = some "hasHasA" ∧
    ¬ ("hasHasA" : String) = "hasA" := by
  refine ⟨by decide, by decide, by decide⟩

/-- C10: `slugify` is partial at the public interface: for every input whose
content is entirely removed by normalization (the pre-split normalized text
is empty or consists only of delimiter characters), `slugify` raises
(modelled as `none`) instead of returning a slug, for every role. -/
theorem splitDelimsF_delim_head {n : Nat} {c : Char} {rest : List Char}
    (hc : isDelim c = true) :
    ∃ l, splitDelimsF (n + 1) (c :: rest) = [] :: l := by
  unfold splitDelimsF
  rw [List.dropWhile_cons, List.takeWhile_cons]
  simp only [hc, Bool.not_true, Bool.false_eq_true, if_false]
  exact ⟨_, rfl⟩

theorem C10_slugify_index_error (s : String) (p i : Bool)
    (h : ∀ c ∈ pyStrip (preNorm p s.data), isDelim c = true) :
    slugify s p i = none := by
  unfold slugify slugifyL
  rcases hst : pyStrip (preNorm p s.data) with _ | ⟨c, rest⟩
  · rfl
  · have hc : isDelim c = true := h c (hst ▸ List.mem_cons_self c rest)
    rw [List.length_cons]
    rcases splitDelimsF_delim_head (n := rest.length) hc with ⟨l, hl⟩
    rw [hl]
    rfl

/-- C10 witness: the empty string, a pure parenthetical aside, a
delimiters-only string and a quotes-only string all fail to slugify. -/
theorem C10_witness :
    slugify "(x)" false false = none ∧ slugify "" true true = none ∧
    slugify ", -" false false = none ∧ slugify "\x27\x27" false true = none :=
  ⟨C10_slugify_index_error "(x)" false false (by decide),
   C10_slugify_index_error "" true true (by decide),
   C10_slugify_index_error ", -" false false (by decide),
   C10_slugify_index_error "\x27\x27" false true (by decide)⟩

/-- C4: a compiled ComplexType's `alone` flag is true iff its content model
is absent and it has exactly one attribute, or its content model's own
`alone` flag is true and it has at most one attribute.  The flag is a
constructor-computed field of the immutable `CTObj`, so (absent external
patching) it is never changed afterwards. -/
theorem C4_complexType_alone (name : Option String) (annotations : List String)
    (attributes : List AttributeObj) (content : Option CTContent) :
    (mkCTObj name annotations attributes content).alone = true ↔
      ((content = none ∧ attributes.length = 1) ∨
       (∃ c, content = some c ∧ contentAlone c = true ∧
         attributes.length ≤ 1)) := by
  cases content with
  | none => simp [mkCTObj]
  | some c => simp [mkCTObj, Bool.and_eq_true]

/-- C5 counterexample: a Sequence consisting solely of a wildcard capture
compiles successfully with `alone = true` and the wildcard present — the
claim requires such a Sequence not to be alone. -/
theorem C5_counterexample :
    (mkSequence [] [] [⟨some "http://www.w3.org/1999/xhtml", none, none⟩]
      "urn:x").map SeqObj.alone = .ok true ∧
    (mkSequence [] [] [⟨some "http://www.w3.org/1999/xhtml", none, none⟩]
      "urn:x").map (fun sq => sq.anyO.isSome) = .ok true :=
  ⟨rfl, rfl⟩

/-- C5 (amended): a compiled Sequence's `alone` flag is true iff it has at
most one named child; in particular a Sequence consisting solely of a
wildcard capture has no named children and IS alone (the dead
`self.alone = True` in the wildcard branch agrees with the overwriting
`len(children) <= 1`).  The no-mixing invariant holds: a compiled Sequence
with a wildcard has no named children. -/
theorem C5_sequence_alone (elements : List ElementObj)
    (choices : List ChoiceObj) (anies : List AnyObj) (ns : String)
    (sq : SeqObj) (h : mkSequence elements choices anies ns = .ok sq) :
    (sq.alone = true ↔ elements.length + choices.length ≤ 1) ∧
    (sq.anyO.isSome = true → elements = [] ∧ choices = []) := by
  have haux : ∀ anyO, mkSequenceAux elements choices anyO ns = .ok sq →
      sq.alone = decide (elements.length + choices.length ≤ 1) ∧
      sq.anyO = anyO := by
    intro anyO ha
    unfold mkSequenceAux at ha
    rcases hm : choices.foldlM (fun acc c => mergeNames acc c.names)
        (elements.foldl (fun acc e => dinsert acc (addNamespace e.name ns) e)
          []) with errv | nm
    · rw [hm] at ha
      cases ha
    · rw [hm] at ha
      cases ha
      exact ⟨rfl, rfl⟩
  rcases anies with _ | ⟨a, _ | ⟨b, rest⟩⟩
  · simp only [mkSequence] at h
    rcases haux none h with ⟨hal, hany⟩
    constructor
    · rw [hal]
      simp
    · intro hs
      rw [hany] at hs
      cases hs
  · simp only [mkSequence] at h
    by_cases h2 : elements.length = 0 ∧ choices.length = 0
    · rw [if_pos h2] at h
      rcases haux (some a) h with ⟨hal, hany⟩
      constructor
      · rw [hal]
        simp
      · intro _
        exact ⟨List.length_eq_zero.mp h2.1, List.length_eq_zero.mp h2.2⟩
    · rw [if_neg h2] at h
      cases h
  · simp only [mkSequence] at h
    cases h

theorem lookupA_nil {κ α : Type} [DecidableEq κ] (k : κ) :
    lookupA ([] : List (κ × α)) k = none := rfl

theorem lookupA_cons {κ α : Type} [DecidableEq κ] (p : κ × α)
    (r : List (κ × α)) (k : κ) :
    lookupA (p :: r) k = if p.1 = k then some p.2 else lookupA r k := rfl

theorem lookupA_append {κ α : Type} [DecidableEq κ] :
    ∀ {l1 l2 : List (κ × α)} {k : κ}, lookupA (l1 ++ l2) k =
      match lookupA l1 k with
      | some v => some v
      | none => lookupA l2 k := by
  intro l1
  induction l1 with
  | nil => intro l2 k; rfl
  | cons p r ih =>
    intro l2 k
    rw [List.cons_append, lookupA_cons, lookupA_cons]
    by_cases hk : p.1 = k
    · rw [if_pos hk, if_pos hk]
    · rw [if_neg hk, if_neg hk]
      exact ih

theorem lookupA_mapReplace {κ α : Type} [DecidableEq κ] {k : κ} {v : α} :
    ∀ {l : List (κ × α)}, (lookupA l k).isSome = true →
      lookupA (l.map (fun p => if p.1 = k then (k, v) else p)) k = some v := by
  intro l
  induction l with
  | nil => intro h; cases h
  | cons p r ih =>
    intro h
    rw [List.map_cons]
    by_cases hk : p.1 = k
    · rw [if_pos hk, lookupA_cons]
      rw [if_pos rfl]
    · rw [if_neg hk, lookupA_cons]
      rw [if_neg hk]
      rw [lookupA_cons, if_neg hk] at h
      exact ih h

theorem lookupA_mapReplace_ne {κ α : Type} [DecidableEq κ] {k k' : κ} {v : α}
    (hne : ¬ k' = k) :
    ∀ {l : List (κ × α)},
      lookupA (l.map (fun p => if p.1 = k then (k, v) else p)) k' =
        lookupA l k' := by
  intro l
  induction l with
  | nil => rfl
  | cons p r ih =>
    rw [List.map_cons, lookupA_cons, lookupA_cons]
    by_cases hk : p.1 = k
    · rw [if_pos hk]
      rw [show ((k, v) : κ × α).1 = k from rfl]
      rw [if_neg (fun e => hne e.symm), if_neg (fun e => hne (hk ▸ e).symm)]
      exact ih
    · rw [if_neg hk]
      by_cases hk2 : p.1 = k'
      · rw [if_pos hk2, if_pos hk2]
      · rw [if_neg hk2, if_neg hk2]
        exact ih

theorem lookupA_dinsert_self {κ α : Type} [DecidableEq κ]
    {l : List (κ × α)} {k : κ} {v : α} :
    lookupA (dinsert l k v) k = some v := by
  unfold dinsert
  by_cases hs : (lookupA l k).isSome = true
  · rw [if_pos hs]
    exact lookupA_mapReplace hs
  · rw [if_neg hs]
    rw [lookupA_append]
    rcases hl : lookupA l k with _ | w
    · show lookupA [(k, v)] k = some v
      rw [lookupA_cons]
      rw [if_pos rfl]
    · rw [hl] at hs
      exact absurd rfl hs

theorem lookupA_dinsert_ne {κ α : Type} [DecidableEq κ]
    {l : List (κ × α)} {k k' : κ} {v : α} (hne : ¬ k' = k) :
    lookupA (dinsert l k v) k' = lookupA l k' := by
  unfold dinsert
  by_cases hs : (lookupA l k).isSome = true
  · rw [if_pos hs]
    exact lookupA_mapReplace_ne hne
  · rw [if_neg hs]
    rw [lookupA_append]
    rcases hl : lookupA l k' with _ | w
    · show lookupA [(k, v)] k' = none
      rw [lookupA_cons]
      rw [if_neg (fun e => hne e.symm)]
      rfl
    · rfl

theorem mergeStep_cases {first dic : List (Option String × ElementObj)}
    {p : Option String × ElementObj} {out : List (Option String × ElementObj)}
    (h : mergeStep first dic p = .ok out) :
    (∃ e0, lookupA first p.1 = some e0 ∧ e0.type_ = p.2.type_ ∧ out = dic) ∨
    (lookupA first p.1 = none ∧ out = dinsert dic p.1 p.2) := by
  unfold mergeStep at h
  split at h
  · rename_i e0 heq
    split at h
    · rename_i ht
      cases h
      exact Or.inl ⟨e0, heq, ht, rfl⟩
    · cases h
  · rename_i heq
    cases h
    exact Or.inr ⟨heq, rfl⟩

theorem mergeStep_error {first dic : List (Option String × ElementObj)}
    {p : Option String × ElementObj} {e : Err}
    (h : mergeStep first dic p = .error e) : e = .typeConflict := by
  unfold mergeStep at h
  split at h
  · split at h
    · cases h
    · cases h
      rfl
  · cases h

theorem mergeFold_untouched {first : List (Option String × ElementObj)}
    {k : Option String} :
    ∀ {other : List (Option String × ElementObj)}
      {acc dic : List (Option String × ElementObj)},
      (∀ p ∈ other, ¬ p.1 = k) →
      other.foldlM (mergeStep first) acc = .ok dic →
      lookupA dic k = lookupA acc k := by
  intro other
  induction other with
  | nil =>
    intro acc dic _ h
    cases h
    rfl
  | cons p rest ih =>
    intro acc dic hk h
    rw [List.foldlM_cons] at h
    rcases hs : mergeStep first acc p with e | acc2
    · rw [hs] at h
      cases h
    · rw [hs] at h
      have h2 := ih (fun q hq => hk q (List.mem_cons_of_mem _ hq)) h
      rw [h2]
      rcases mergeStep_cases hs with ⟨e0, _, _, hout⟩ | ⟨_, hout⟩
      · rw [hout]
      · rw [hout]
        exact lookupA_dinsert_ne fun e => hk p (List.mem_cons_self p rest) e.symm

theorem mergeFold_main {first : List (Option String × ElementObj)} :
    ∀ {other : List (Option String × ElementObj)}
      {acc dic : List (Option String × ElementObj)},
      nodupKeys other →
      (∀ k v, lookupA first k = some v → lookupA acc k = some v) →
      other.foldlM (mergeStep first) acc = .ok dic →
      (∀ k v, lookupA first k = some v → lookupA dic k = some v) ∧
      (∀ p ∈ other, ∃ e0, lookupA dic p.1 = some e0 ∧
        e0.type_ = p.2.type_) := by
  intro other
  induction other with
  | nil =>
    intro acc dic _ hsub h
    cases h
    exact ⟨hsub, by intro p hp; cases hp⟩
  | cons p rest ih =>
    intro acc dic hnd hsub h
    rw [List.foldlM_cons] at h
    rcases hs : mergeStep first acc p with e | acc2
    · rw [hs] at h
      cases h
    · rw [hs] at h
      have hndr : nodupKeys rest := (List.nodup_cons.mp hnd).2
      have hknotin : ∀ q ∈ rest, ¬ q.1 = p.1 := by
        intro q hq he
        exact (List.nodup_cons.mp hnd).1 (he ▸ List.mem_map_of_mem Prod.fst hq)
      rcases mergeStep_cases hs with ⟨e0, hl, ht, hout⟩ | ⟨hl, hout⟩
      · subst hout
        rcases ih hndr hsub h with ⟨hsub2, hcov⟩
        refine ⟨hsub2, ?_⟩
        intro q hq
        rcases List.mem_cons.mp hq with hq | hq
        · subst hq
          exact ⟨e0, hsub2 _ _ hl, ht⟩
        · exact hcov q hq
      · subst hout
        have hsub1 : ∀ k v, lookupA first k = some v →
            lookupA (dinsert acc p.1 p.2) k = some v := by
          intro k v hkv
          have hne : ¬ k = p.1 := by
            intro e
            rw [e, hl] at hkv
            cases hkv
          rw [lookupA_dinsert_ne hne]
          exact hsub k v hkv
        rcases ih hndr hsub1 h with ⟨hsub2, hcov⟩
        refine ⟨hsub2, ?_⟩
        intro q hq
        rcases List.mem_cons.mp hq with hq | hq
        · subst hq
          refine ⟨q.2, ?_, rfl⟩
          rw [mergeFold_untouched hknotin h, lookupA_dinsert_self]
        · exact hcov q hq

theorem mergeNames_props {first other dic : List (Option String × ElementObj)}
    (hnd : nodupKeys other) (h : mergeNames first other = .ok dic) :
    (∀ k v, lookupA first k = some v → lookupA dic k = some v) ∧
    (∀ p ∈ other, ∃ e0, lookupA dic p.1 = some e0 ∧
      e0.type_ = p.2.type_) :=
  mergeFold_main hnd (fun _ _ hv => hv) h

theorem choiceFold_main :
    ∀ {bs : List (List (Option String × ElementObj))}
      {acc dic : List (Option String × ElementObj)},
      (∀ b ∈ bs, nodupKeys b) →
      bs.foldlM mergeNames acc = .ok dic →
      (∀ k v, lookupA acc k = some v → lookupA dic k = some v) ∧
      (∀ b ∈ bs, ∀ p ∈ b, ∃ e0, lookupA dic p.1 = some e0 ∧
        e0.type_ = p.2.type_) := by
  intro bs
  induction bs with
  | nil =>
    intro acc dic _ h
    cases h
    exact ⟨fun _ _ hv => hv, by intro b hb; cases hb⟩
  | cons b rest ih =>
    intro acc dic hnd h
    rw [List.foldlM_cons] at h
    rcases hm : mergeNames acc b with e | acc2
    · rw [hm] at h
      cases h
    · rw [hm] at h
      rcases mergeNames_props (hnd b (List.mem_cons_self b rest)) hm with
        ⟨mono1, cov1⟩
      rcases ih (fun b2 hb2 => hnd b2 (List.mem_cons_of_mem _ hb2)) h with
        ⟨mono2, cov2⟩
      refine ⟨fun k v hv => mono2 k v (mono1 k v hv), ?_⟩
      intro b2 hb2 p hp
      rcases List.mem_cons.mp hb2 with hb2 | hb2
      · subst hb2
        rcases cov1 p hp with ⟨e0, he0, ht⟩
        exact ⟨e0, mono2 _ _ he0, ht⟩
      · exact cov2 b2 hb2 p hp

theorem mergeFold_error {first : List (Option String × ElementObj)} :
    ∀ {other : List (Option String × ElementObj)}
      {acc : List (Option String × ElementObj)} {e : Err},
      other.foldlM (mergeStep first) acc = .error e → e = .typeConflict := by
  intro other
  induction other with
  | nil =>
    intro acc e h
    cases h
  | cons p rest ih =>
    intro acc e h
    rw [List.foldlM_cons] at h
    rcases hs : mergeStep first acc p with e2 | acc2
    · rw [hs] at h
      cases h
      exact mergeStep_error hs
    · rw [hs] at h
      exact ih h

theorem mergeNames_error {first other : List (Option String × ElementObj)}
    {e : Err} (h : mergeNames first other = .error e) : e = .typeConflict :=
  mergeFold_error h

theorem choiceFold_error :
    ∀ {bs : List (List (Option String × ElementObj))}
      {acc : List (Option String × ElementObj)} {e : Err},
      bs.foldlM mergeNames acc = .error e → e = .typeConflict := by
  intro bs
  induction bs with
  | nil =>
    intro acc e h
    cases h
  | cons b rest ih =>
    intro acc e h
    rw [List.foldlM_cons] at h
    rcases hm : mergeNames acc b with e2 | acc2
    · rw [hm] at h
      cases h
      exact mergeNames_error hm
    · rw [hm] at h
      exact ih h

theorem choiceBranches_nodup {sequences : List SeqObj}
    {elements : List ElementObj} {ns : String}
    (hnd : ∀ sq ∈ sequences, nodupKeys sq.names) :
    ∀ b ∈ sequences.map SeqObj.names ++
        elements.map (fun e => elementNames e ns), nodupKeys b := by
  intro b hb
  rcases List.mem_append.mp hb with hb | hb
  · rcases List.mem_map.mp hb with ⟨sq, hsq, he⟩
    exact he ▸ hnd sq hsq
  · rcases List.mem_map.mp hb with ⟨e, _, he⟩
    subst he
    simp [nodupKeys, elementNames]

theorem mkChoice_consistent {sequences : List SeqObj}
    {elements : List ElementObj} {ns : String} {ch : ChoiceObj}
    (hnd : ∀ sq ∈ sequences, nodupKeys sq.names)
    (h : mkChoice sequences elements ns = .ok ch) :
    ∀ t e1 e2, (t, e1) ∈ choiceBindings sequences elements ns →
      (t, e2) ∈ choiceBindings sequences elements ns →
      e1.type_ = e2.type_ := by
  unfold mkChoice at h
  rcases hf : (sequences.map SeqObj.names ++
      elements.map (fun e => elementNames e ns)).foldlM mergeNames [] with
    e | names
  · rw [hf] at h
    cases h
  · rw [hf] at h
    rcases choiceFold_main (choiceBranches_nodup hnd) hf with ⟨_, cov⟩
    intro t e1 e2 h1 h2
    rcases List.mem_flatten.mp h1 with ⟨b1, hb1, hp1⟩
    rcases List.mem_flatten.mp h2 with ⟨b2, hb2, hp2⟩
    rcases cov b1 hb1 (t, e1) hp1 with ⟨f1, hf1, ht1⟩
    rcases cov b2 hb2 (t, e2) hp2 with ⟨f2, hf2, ht2⟩
    rw [hf1] at hf2
    cases hf2
    rw [← ht1, ← ht2]

theorem mkChoice_only_conflict {sequences : List SeqObj}
    {elements : List ElementObj} {ns : String} {e : Err}
    (h : mkChoice sequences elements ns = .error e) : e = .typeConflict := by
  unfold mkChoice at h
  rcases hf : (sequences.map SeqObj.names ++
      elements.map (fun e => elementNames e ns)).foldlM mergeNames [] with
    e2 | names
  · rw [hf] at h
    cases h
    exact choiceFold_error hf
  · rw [hf] at h
    cases h

theorem run_bind {α β : Type} (x : M α) (f : α → M β) (st : PState) :
    (x >>= f) st = match x st with
      | .ok a s => f a s
      | .error e s => .error e s := by
  show EStateM.bind x f st = _
  unfold EStateM.bind
  rcases x st with _ | _ <;> rfl

theorem run_tryCatch {α : Type} (x : M α) (h : Err → M α) (st : PState) :
    (tryCatch x h) st = match x st with
      | .ok a s => .ok a s
      | .error e s => h e s := by
  show EStateM.tryCatch x h st = _
  unfold EStateM.tryCatch
  rcases x st with _ | _ <;> rfl

theorem run_pure {α : Type} (a : α) (st : PState) :
    (pure a : M α) st = .ok a st := rfl

theorem run_throw {α : Type} (e : Err) (st : PState) :
    (throw e : M α) st = .error e st := rfl

theorem run_liftE_ok {α : Type} (a : α) (st : PState) :
    (liftE (.ok a) : M α) st = .ok a st := rfl

theorem run_liftE_error {α : Type} (e : Err) (st : PState) :
    (liftE (.error e) : M α) st = .error e st := rfl

/-- C5 witness: a concrete two-element sequence is not alone, and a concrete
one-element sequence is alone. -/
theorem C5_witness :
    (∃ sq, mkSequence [⟨some "A", [], .tname "T"⟩, ⟨some "B", [], .tname "T"⟩]
        [] [] "urn:x" = .ok sq ∧ sq.alone = false) ∧
    (∃ sq, mkSequence [⟨some "A", [], .tname "T"⟩] [] [] "urn:x" = .ok sq ∧
      sq.alone = true) := by
  constructor
  · refine ⟨_, rfl, ?_⟩
    have h := C5_sequence_alone
      [⟨some "A", [], .tname "T"⟩, ⟨some "B", [], .tname "T"⟩] [] [] "urn:x"
      _ rfl
    rcases hal : SeqObj.alone _ with _ | _
    · rfl
    · have := h.1.mp hal
      simp at this
  · refine ⟨_, rfl, ?_⟩
    have h := C5_sequence_alone [⟨some "A", [], .tname "T"⟩] [] [] "urn:x"
      _ rfl
    exact h.1.mpr (by simp)

/-- C3 counterexample: with the program's configuration (`ID_ATTRIBUTES =
['ID', 'seq']` as set by the driver), parsing `<Item id="42"/>` against the
minimal schema (one element of complex type with one required string
attribute `id`) does produce one Individual with type name `Item` carrying
the one assertion `(id, "42")` — but its serialization identity is
`indItemItem1` (the individual-role slug of type name + fallback name),
not `Item-42`, because `id` is not a designated ID attribute; moreover the
one-attribute type is `alone`, so the document-level parse flattens the
Individual away and returns the bare literal. -/
theorem C3_counterexample :
    ctParse 5 mainConfig scItemLower 0 (.node itemDocLower) st0 =
      .ok (.mk "Item_1" none (some "Item") "Item_1" [] false
        [.mk "id" (.lit xsStringCls "42")] 0)
        { fresh := 1, prelude := [], marks := [0], classLog := [] } ∧
    indivSlug mainConfig
      (.mk "Item_1" none (some "Item") "Item_1" [] false
        [.mk "id" (.lit xsStringCls "42")] 0) = some "indItemItem1" ∧
    ¬ ((some "indItemItem1" : Option String) = some "Item-42") ∧
    schemaParse 6 mainConfig scItemLower itemDocLower st0 =
      .ok [OutE.val (.lit xsStringCls "42")]
        { fresh := 1, prelude := [], marks := [0], classLog := [] } :=
  ⟨rfl, by decide, by decide, rfl⟩

/-- C3 (amended): with the attribute spelled `ID` — the first entry of the
configured ID attribute list; the claim's `id` is not ID-designated —
parsing `<Item ID="42"/>` against the minimal schema yields from the
complex-type parse exactly one Individual (exactly one allocation: the
fresh counter advances from 0 to 1) whose type name is `Item`, whose slug
is `Item-42`, and which carries exactly one Has assertion `(ID, "42")`;
the type being `alone`, the document-level parse returns the flattened
value rather than the Individual. -/
theorem C3_roundtrip :
    ctParse 5 mainConfig scItemID 0 (.node itemDocID) st0 =
      .ok (.mk "Item_1" (some "42") (some "Item") "Item_1" [] false
        [.mk "ID" (.lit xsStringCls "42")] 0)
        { fresh := 1, prelude := [], marks := [0], classLog := [] } ∧
    indivSlug mainConfig
      (.mk "Item_1" (some "42") (some "Item") "Item_1" [] false
        [.mk "ID" (.lit xsStringCls "42")] 0) = some "Item-42" ∧
    schemaParse 6 mainConfig scItemID itemDocID st0 =
      .ok [OutE.val (.lit xsStringCls "42")]
        { fresh := 1, prelude := [], marks := [0], classLog := [] } :=
  ⟨rfl, by decide, rfl⟩

theorem getString_node_empty_iff (n : Node) :
    getStringE (.node n) = .error .emptyLiteral ↔ n.text = none := by
  show (match n.text with
    | none => Except.error Err.emptyLiteral
    | some t => Except.ok (pyStripStr t)) = .error .emptyLiteral ↔
    n.text = none
  rcases n.text with _ | t
  · simp
  · simp

theorem extParse_swallow (n : Nat) (cfg : Config) (sc : SchemaObj)
    (ext : ExtObj) (node : Node) (st st1 st2 : PState) (asserts : List HasA)
    (hattrs : attrsFoldW (entryParse n cfg sc) sc ext.attributes node.attrs st
      = .ok asserts st1)
    (hbase : ((liftE (resolveT sc ext.base) : M RegEntry) >>= fun entry =>
        entryParse n cfg sc entry (.node node)) st1 =
      .error .emptyLiteral st2) :
    extParse n cfg sc ext node st = .ok asserts st2 := by
  have hbody : ((liftE (resolveT sc ext.base) : M RegEntry) >>= fun entry =>
      entryParse n cfg sc entry (.node node) >>= fun parsed =>
      (match parsed with
       | Parsed.lit c v => pure [HasA.mk "@@value" (Val.lit c v)]
       | Parsed.ind i => pure i.assertions : M (List HasA))) st1 =
      .error .emptyLiteral st2 := by
    rw [run_bind] at hbase ⊢
    rcases hr : (liftE (resolveT sc ext.base) : M RegEntry) st1 with
      ⟨entry, s⟩ | ⟨e, s⟩
    · simp only [hr] at hbase ⊢
      rw [run_bind]
      simp only [hbase]
    · simp only [hr] at hbase ⊢
      injection hbase with h1 h2
      rw [h1, h2]
  unfold extParse extParseW
  rw [run_bind]
  simp only [hattrs]
  rw [run_bind, run_tryCatch]
  simp only [hbody]
  simp only [run_pure, List.append_nil]

theorem elementParse_propagates (n : Nat) (cfg : Config) (sc : SchemaObj)
    (el : ElementObj) (node : Node) (st st1 : PState) (e : Err)
    (entry : RegEntry) (hres : resolveT sc el.type_ = .ok entry)
    (hparse : entryParse n cfg sc entry (.node node) st = .error e st1) :
    elementParse n cfg sc el node st = .error e st1 := by
  unfold elementParse elementParseW
  rw [run_bind, hres]
  simp only [run_liftE_ok]
  rw [run_bind]
  simp only [hparse]

theorem schemaParse_aborts (n : Nat) (cfg : Config) (sc : SchemaObj)
    (doc : Node) (st st1 : PState) (e : Err) (el : ElementObj)
    (hel : lookupA sc.elements doc.tag = some el)
    (hparse : elementParse n cfg sc el doc st = .error e st1) :
    schemaParse n cfg sc doc st = .error e st1 := by
  unfold schemaParse
  simp only [hel]
  rw [run_bind]
  simp only [hparse]

/-- C9 (amended): the empty-literal condition (`EmptyLiteralException`)
arises from `get_string` exactly when the literal NODE has no text content
at all (`text is None`); text that is present but trims to empty yields the
empty string value instead of raising (see the counterexample).  The
condition is caught and swallowed exactly by Extension base parsing
(treated as no base value, the attribute assertions surviving), and from
other parse sites it propagates — through `Element.parse` — and aborts the
enclosing document parse (`Schema.parse`). -/
theorem C9_empty_literal :
    (∀ n : Node, getStringE (.node n) = .error .emptyLiteral ↔
      n.text = none) ∧
    (∀ s : String, getStringE (.str s) = .ok (pyStripStr s)) ∧
    (∀ (n : Nat) (cfg : Config) (sc : SchemaObj) (ext : ExtObj) (node : Node)
      (st st1 st2 : PState) (asserts : List HasA),
      attrsFoldW (entryParse n cfg sc) sc ext.attributes node.attrs st
        = .ok asserts st1 →
      ((liftE (resolveT sc ext.base) : M RegEntry) >>= fun entry =>
        entryParse n cfg sc entry (.node node)) st1 =
        .error .emptyLiteral st2 →
      extParse n cfg sc ext node st = .ok asserts st2) ∧
    (∀ (n : Nat) (cfg : Config) (sc : SchemaObj) (el : ElementObj)
      (node : Node) (st st1 : PState) (e : Err) (entry : RegEntry),
      resolveT sc el.type_ = .ok entry →
      entryParse n cfg sc entry (.node node) st = .error e st1 →
      elementParse n cfg sc el node st = .error e st1) ∧
    (∀ (n : Nat) (cfg : Config) (sc : SchemaObj) (doc : Node)
      (st st1 : PState) (e : Err) (el : ElementObj),
      lookupA sc.elements doc.tag = some el →
      elementParse n cfg sc el doc st = .error e st1 →
      schemaParse n cfg sc doc st = .error e st1) :=
  ⟨getString_node_empty_iff, fun _ => rfl,
   fun n cfg sc ext node st st1 st2 asserts =>
     extParse_swallow n cfg sc ext node st st1 st2 asserts,
   fun n cfg sc el node st st1 e entry =>
     elementParse_propagates n cfg sc el node st st1 e entry,
   fun n cfg sc doc st st1 e el =>
     schemaParse_aborts n cfg sc doc st st1 e el⟩

/-- C9 witness: concrete runs of the theorem — the Extension with a string
base swallows the empty literal of a text-less node and keeps the attribute
assertion; the same node parsed through a plain string-typed element
propagates the error; and the error condition holds exactly there. -/
theorem C9_witness :
    extParse 4 mainConfig scItemID extString emptyNodeX st0 =
      .ok [.mk "x" (.lit xsStringCls "7")] st0 ∧
    elementParse 4 mainConfig scItemID elString emptyNodeX st0 =
      .error .emptyLiteral st0 ∧
    getStringE (.node emptyNodeX) = .error .emptyLiteral :=
  ⟨C9_empty_literal.2.2.1 4 mainConfig scItemID extString emptyNodeX st0 st0
     st0 [.mk "x" (.lit xsStringCls "7")] rfl rfl,
   C9_empty_literal.2.2.2.1 4 mainConfig scItemID elString emptyNodeX st0 st0
     .emptyLiteral .strLit rfl rfl,
   (C9_empty_literal.1 emptyNodeX).mpr rfl⟩

/-- C9 counterexample: a literal node whose text content is present but
empty after trimming does NOT raise — `get_string` returns the empty
string, and the string-literal parse yields an empty literal value. -/
theorem C9_counterexample :
    getStringE (.node blankNode) = .ok "" ∧
    entryParse 2 mainConfig scItemID .strLit (.node blankNode) st0 =
      .ok (.lit xsStringCls "") st0 :=
  ⟨rfl, rfl⟩

theorem makeName_map_none (f : String → Option Val) (h : ∀ x, f x = none) :
    ∀ (l : List String) (tag : String), makeName (l.map f) tag = tag := by
  intro l
  induction l with
  | nil => intro tag; rfl
  | cons a rest ih =>
    intro tag
    rw [List.map_cons, h a]
    show makeName (rest.map f) tag = tag
    exact ih tag

theorem enumGetM_run (cfg : Config) (e : EnumerationObj) (name : Option String)
    (ig : Bool) (st : PState) :
    enumGetM cfg e name ig st =
      .ok (.mk e.value none name e.value e.annotations ig [] st.fresh)
        { st with fresh := st.fresh + 1 } := by
  have h : makeName (cfg.nameAttributes.map (lastNameVal cfg.idAttributes []))
      e.value = e.value := makeName_map_none _ (fun x => rfl) _ _
  have h2 : enumGetM cfg e name ig st =
      EStateM.Result.ok
        (Indiv.mk
          (makeName (cfg.nameAttributes.map (lastNameVal cfg.idAttributes []))
            e.value)
          none name
          (makeName (cfg.nameAttributes.map (lastNameVal cfg.idAttributes []))
            e.value)
          e.annotations ig [] st.fresh)
        { st with fresh := st.fresh + 1 } := rfl
  rw [h2, h]

theorem restrictionParseM_run (cfg : Config) (r : RestrictionObj)
    (input : ParseInput) (st2 : PState) (v : String) (e : EnumerationObj)
    (hs : getStringE input = .ok v)
    (he : lookupA r.enumerations v = some e) :
    restrictionParseM cfg r input st2 =
      .ok (.ind (.mk e.value none r.name e.value e.annotations true []
        st2.fresh))
        { st2 with fresh := st2.fresh + 1 } := by
  unfold restrictionParseM
  rw [run_bind, hs]
  simp only [run_liftE_ok]
  simp only [he]
  rw [run_bind, enumGetM_run]
  rfl

theorem restrictionInitStep_run (cfg : Config) (name : Option String)
    (acc : List (String × EnumerationObj)) (e : EnumerationObj)
    (st : PState) :
    restrictionInitStep cfg name acc e st =
      .ok (dinsert acc e.value e)
        { st with
          fresh := st.fresh + 1,
          prelude := st.prelude ++
            [.indD (.mk e.value none name e.value e.annotations false []
              st.fresh)] } := by
  unfold restrictionInitStep
  rw [run_bind, enumGetM_run]
  rfl

theorem restrictionInit_fold (cfg : Config) (name : Option String) :
    ∀ {enums : List EnumerationObj}
      {acc table : List (String × EnumerationObj)} {st st1 : PState},
      (enums.foldlM (restrictionInitStep cfg name) acc) st = .ok table st1 →
      (∀ p ∈ st.prelude, p ∈ st1.prelude) ∧
      (∀ v e, lookupA table v = some e →
        lookupA acc v = some e ∨
        ∃ rp, PEntry.indD
          (.mk e.value none name e.value e.annotations false [] rp)
          ∈ st1.prelude) := by
  intro enums
  induction enums with
  | nil =>
    intro acc table st st1 h
    cases h
    exact ⟨fun p hp => hp, fun v e hv => Or.inl hv⟩
  | cons e0 rest ih =>
    intro acc table st st1 h
    rw [List.foldlM_cons, run_bind, restrictionInitStep_run] at h
    rcases ih h with ⟨mono, hcov⟩
    constructor
    · intro p hp
      exact mono p (List.mem_append_left _ hp)
    · intro v e hv
      rcases hcov v e hv with hv2 | hv2
      · by_cases hveq : v = e0.value
        · subst hveq
          rw [lookupA_dinsert_self] at hv2
          cases hv2
          refine Or.inr ⟨st.fresh, mono _ ?_⟩
          exact List.mem_append_right _ (List.mem_singleton.mpr rfl)
        · rw [lookupA_dinsert_ne hveq] at hv2
          exact Or.inl hv2
      · exact Or.inr hv2

/-- C2 (amended): repeated resolution of an enumeration value does NOT
return the reference-identical prelude singleton: every `Restriction.parse`
builds a fresh Individual (`Enumeration.get` constructs a new object whose
allocation reference is the current counter, so two resolutions never
return the same object), with `ignore = True`.  What is shared is the
identity: the fresh Individual has exactly the same name, type, annotations
and (absent) id as the `ignore=False` singleton appended to the prelude for
that value at compilation, hence the identical slug. -/
theorem C2_resolution_fresh_but_same_identity :
    ∀ (cfg : Config) (base : Option TypeRef) (name : Option String)
      (enums : List EnumerationObj) (st st1 : PState) (r : RestrictionObj),
      restrictionInitM cfg base name enums st = .ok r st1 →
      ∀ (v : String) (e : EnumerationObj),
        lookupA r.enumerations v = some e →
      ∀ (input : ParseInput) (st2 : PState), getStringE input = .ok v →
        restrictionParseM cfg r input st2 =
          .ok (.ind (.mk e.value none name e.value e.annotations true []
            st2.fresh))
            { st2 with fresh := st2.fresh + 1 } ∧
        (∃ rp, PEntry.indD
            (.mk e.value none name e.value e.annotations false [] rp)
            ∈ st1.prelude ∧
          indivSlug cfg
            (.mk e.value none name e.value e.annotations true [] st2.fresh) =
          indivSlug cfg
            (.mk e.value none name e.value e.annotations false [] rp)) := by
  intro cfg base name enums st st1 r hinit v e hv input st2 hs
  have hr : ∃ table st1b,
      (enums.foldlM (restrictionInitStep cfg name)
        ([] : List (String × EnumerationObj))) st = .ok table st1b ∧
      r = ⟨base, table, name⟩ ∧ st1b = st1 := by
    unfold restrictionInitM at hinit
    rw [run_bind] at hinit
    rcases hf : (enums.foldlM (restrictionInitStep cfg name)
        ([] : List (String × EnumerationObj))) st with ⟨table, stb⟩ | ⟨e2, stb⟩
    · simp only [hf] at hinit
      cases hinit
      exact ⟨table, _, rfl, rfl, rfl⟩
    · simp only [hf] at hinit
      cases hinit
  rcases hr with ⟨table, st1b, hf, hreq, hsteq⟩
  subst hreq
  subst hsteq
  rcases restrictionInit_fold cfg name hf with ⟨_, hcov⟩
  constructor
  · exact restrictionParseM_run cfg _ input st2 v e hs hv
  · rcases hcov v e hv with hv2 | hv2
    · rw [lookupA_nil] at hv2
      cases hv2
    · rcases hv2 with ⟨rp, hrp⟩
      exact ⟨rp, hrp, rfl⟩

/-- C2 witness: a concrete one-value vocabulary, resolved at a concrete
state. -/
theorem C2_witness :
    restrictionParseM mainConfig ⟨none, [("v", ⟨"v", ["note"]⟩)], some "Color"⟩
      (.str "v")
      ⟨1, [.indD (.mk "v" none (some "Color") "v" ["note"] false [] 0)],
        [], []⟩ =
    .ok (.ind (.mk "v" none (some "Color") "v" ["note"] true [] 1))
      ⟨2, [.indD (.mk "v" none (some "Color") "v" ["note"] false [] 0)],
        [], []⟩ := by
  have h := (C2_resolution_fresh_but_same_identity mainConfig none
    (some "Color") [⟨"v", ["note"]⟩] st0
    ⟨1, [.indD (.mk "v" none (some "Color") "v" ["note"] false [] 0)], [], []⟩
    ⟨none, [("v", ⟨"v", ["note"]⟩)], some "Color"⟩ rfl "v" ⟨"v", ["note"]⟩ rfl
    (.str "v")
    ⟨1, [.indD (.mk "v" none (some "Color") "v" ["note"] false [] 0)],
      [], []⟩ rfl).1
  exact h

/-- C2 counterexample: the claim's reference identity is false — the
prelude singleton for value `v` has allocation reference 0, while two
successive restriction lookups of `v` return two fresh Individuals with
references 1 and 2: neither is the prelude object, and they are not even
the same object as each other (their `ignore` flag also differs from the
prelude singleton's). -/
theorem C2_counterexample :
    restrictionInitM mainConfig none (some "Color") [⟨"v", ["note"]⟩] st0 =
      .ok ⟨none, [("v", ⟨"v", ["note"]⟩)], some "Color"⟩
        ⟨1, [.indD (.mk "v" none (some "Color") "v" ["note"] false [] 0)],
          [], []⟩ ∧
    restrictionParseM mainConfig
      ⟨none, [("v", ⟨"v", ["note"]⟩)], some "Color"⟩ (.str "v")
      ⟨1, [.indD (.mk "v" none (some "Color") "v" ["note"] false [] 0)],
        [], []⟩ =
      .ok (.ind (.mk "v" none (some "Color") "v" ["note"] true [] 1))
        ⟨2, [.indD (.mk "v" none (some "Color") "v" ["note"] false [] 0)],
          [], []⟩ ∧
    restrictionParseM mainConfig
      ⟨none, [("v", ⟨"v", ["note"]⟩)], some "Color"⟩ (.str "v")
      ⟨2, [.indD (.mk "v" none (some "Color") "v" ["note"] false [] 0)],
        [], []⟩ =
      .ok (.ind (.mk "v" none (some "Color") "v" ["note"] true [] 2))
        ⟨3, [.indD (.mk "v" none (some "Color") "v" ["note"] false [] 0)],
          [], []⟩ ∧
    Indiv.ref (.mk "v" none (some "Color") "v" ["note"] true [] 1) ≠
      Indiv.ref (.mk "v" none (some "Color") "v" ["note"] false [] 0) ∧
    Indiv.ref (.mk "v" none (some "Color") "v" ["note"] true [] 2) ≠
      Indiv.ref (.mk "v" none (some "Color") "v" ["note"] true [] 1) :=
  ⟨rfl, rfl, rfl, by decide, by decide⟩

theorem foldl_push_map {α β : Type} (f : α → β) :
    ∀ (l : List α) (acc : List β),
      l.foldl (fun acc a => acc ++ [f a]) acc = acc ++ l.map f := by
  intro l
  induction l with
  | nil => intro acc; rw [List.foldl_nil, List.map_nil, List.append_nil]
  | cons a rest ih =>
    intro acc
    rw [List.foldl_cons, ih, List.map_cons, List.append_assoc,
      List.singleton_append]

/-- C8: for every element parse whose type resolves and whose type parse
succeeds: if the resolved type is alone, the element parse returns the
child's assertion list spliced for the caller, every `@@value` placeholder
replaced by an assertion named after this element carrying the same value
and all other assertions passed through unchanged (a `map`); otherwise it
returns the whole parsed result wrapped as a single Has assertion named
after the element. -/
theorem C8_element_splice_or_wrap :
    ∀ (n : Nat) (cfg : Config) (sc : SchemaObj) (el : ElementObj)
      (node : Node) (st st1 : PState) (entry : RegEntry) (parsed : Parsed),
      resolveT sc el.type_ = .ok entry →
      entryParse n cfg sc entry (.node node) st = .ok parsed st1 →
      ((entryAlone sc entry = true → ∀ i, parsed = .ind i →
        elementParse n cfg sc el node st =
          .ok (.spliced (i.assertions.map (fun a =>
            if a.attr = "@@value" then HasA.mk (getName sc node) a.value
            else a))) st1) ∧
       (entryAlone sc entry = false →
        elementParse n cfg sc el node st =
          .ok (.has (.mk (getName sc node) parsed.toVal)) st1)) := by
  intro n cfg sc el node st st1 entry parsed hres hparse
  constructor
  · intro halone i hpi
    subst hpi
    unfold elementParse elementParseW
    rw [run_bind, hres]
    simp only [run_liftE_ok]
    rw [run_bind]
    simp only [hparse, halone, if_true]
    rw [foldl_push_map
      (fun a => if a.attr = "@@value" then HasA.mk (getName sc node) a.value
                else a)]
    simp only [List.nil_append]
    rfl
  · intro halone
    unfold elementParse elementParseW
    rw [run_bind, hres]
    simp only [run_liftE_ok]
    rw [run_bind]
    simp only [hparse, halone, Bool.false_eq_true, if_false]
    rfl

/-- C8 witness: the alone splice on the concrete minimal schema (the
attribute assertion passes through unchanged; there is no placeholder), and
the wrap case on a string-typed element. -/
theorem C8_witness :
    elementParse 5 mainConfig scItemID ⟨some "Item", [], .inline 0⟩
      itemDocID st0 =
      .ok (.spliced [.mk "ID" (.lit xsStringCls "42")])
        { fresh := 1, prelude := [], marks := [0], classLog := [] } ∧
    elementParse 4 mainConfig scItemID elString
      (.mk "\x7burn:test\x7dE" [] [] (some "hi") 2) st0 =
      .ok (.has (.mk "E" (.lit xsStringCls "hi"))) st0 :=
  ⟨(C8_element_splice_or_wrap 5 mainConfig scItemID
      ⟨some "Item", [], .inline 0⟩ itemDocID st0
      { fresh := 1, prelude := [], marks := [0], classLog := [] }
      (.arenaIdx 0)
      (.ind (.mk "Item_1" (some "42") (some "Item") "Item_1" [] false
        [.mk "ID" (.lit xsStringCls "42")] 0))
      rfl rfl).1 rfl
      (.mk "Item_1" (some "42") (some "Item") "Item_1" [] false
        [.mk "ID" (.lit xsStringCls "42")] 0) rfl,
   (C8_element_splice_or_wrap 4 mainConfig scItemID elString
      (.mk "\x7burn:test\x7dE" [] [] (some "hi") 2) st0 st0 .strLit
      (.lit xsStringCls "hi") rfl rfl).2 rfl⟩

theorem stepOK_refl (sc : SchemaObj) (st : PState) : StepOK sc st st :=
  ⟨fun _ h => h, fun id => ⟨fun _ => rfl, Nat.le_succ _,
    fun h => absurd rfl (Nat.ne_of_lt h).symm, fun _ => rfl⟩⟩

theorem stepOK_trans {sc : SchemaObj} {st1 st2 st3 : PState}
    (h1 : StepOK sc st1 st2) (h2 : StepOK sc st2 st3) : StepOK sc st1 st3 := by
  refine ⟨fun i hi => h2.1 i (h1.1 i hi), fun id => ?_⟩
  rcases h1.2 id with ⟨a1, b1, c1, d1⟩
  rcases h2.2 id with ⟨a2, b2, c2, d2⟩
  refine ⟨?_, ?_, ?_, ?_⟩
  · intro hm
    rw [a2 (h1.1 id hm), a1 hm]
  · by_cases hm : id ∈ st1.marks
    · rw [a2 (h1.1 id hm), a1 hm]
      exact Nat.le_succ _
    · rcases Nat.lt_or_ge (st1.classLog.count id) (st2.classLog.count id) with
        hlt | hge
      · rw [a2 (c1 hlt)]
        exact b1
      · exact le_trans b2 (Nat.add_le_add_right hge 1)
  · intro hlt
    rcases Nat.lt_or_ge (st2.classLog.count id) (st3.classLog.count id) with
      h3 | h3
    · exact c2 h3
    · exact h2.1 id (c1 (Nat.lt_of_lt_of_le hlt h3))
  · intro hal
    rw [d2 hal, d1 hal]

theorem tame_pure {α : Type} {sc : SchemaObj} (a : α) :
    Tame sc (pure a : M α) :=
  fun st => ⟨stepOK_refl sc st, fun _ h => by cases h⟩

theorem tame_get {sc : SchemaObj} : Tame sc (get : M PState) :=
  fun st => ⟨stepOK_refl sc st, fun _ h => by cases h⟩

theorem tame_throw {α : Type} {sc : SchemaObj} {e : Err}
    (he : ¬ e = .typeConflict) : Tame sc (throw e : M α) :=
  fun st => ⟨stepOK_refl sc st, fun _ h => by
    injection h with h1 _
    exact he h1⟩

theorem tame_bind {α β : Type} {sc : SchemaObj} {x : M α} {f : α → M β}
    (hx : Tame sc x) (hf : ∀ a, Tame sc (f a)) : Tame sc (x >>= f) := by
  intro st
  rw [run_bind]
  rcases hr : x st with ⟨a, s⟩ | ⟨e, s⟩
  · have h1 : StepOK sc st s := by
      have := (hx st).1
      rw [hr] at this
      exact this
    rcases hf a s with ⟨h2, h3⟩
    exact ⟨stepOK_trans h1 h2, h3⟩
  · have h1 : StepOK sc st s := by
      have := (hx st).1
      rw [hr] at this
      exact this
    refine ⟨h1, fun st2 h => ?_⟩
    injection h with h2 _
    exact (hx st).2 s (h2 ▸ hr)

theorem tame_tryCatch {α : Type} {sc : SchemaObj} {x : M α} {h : Err → M α}
    (hx : Tame sc x) (hh : ∀ e, ¬ e = .typeConflict → Tame sc (h e)) :
    Tame sc (tryCatch x h) := by
  intro st
  rw [run_tryCatch]
  rcases hr : x st with ⟨a, s⟩ | ⟨e, s⟩
  · have h1 : StepOK sc st s := by
      have := (hx st).1
      rw [hr] at this
      exact this
    exact ⟨h1, fun _ h2 => by cases h2⟩
  · have h1 : StepOK sc st s := by
      have := (hx st).1
      rw [hr] at this
      exact this
    have hek : ¬ e = .typeConflict := fun heq => (hx st).2 s (heq ▸ hr)
    rcases hh e hek s with ⟨h2, h3⟩
    exact ⟨stepOK_trans h1 h2, h3⟩

theorem tame_liftE {α : Type} {sc : SchemaObj} {x : Except Err α}
    (hx : ¬ x = .error .typeConflict) : Tame sc (liftE x) := by
  rcases x with e | a
  · exact tame_throw fun he => hx (he ▸ rfl)
  · exact tame_pure a

theorem tame_allocRef {sc : SchemaObj} : Tame sc allocRef :=
  fun st => ⟨stepOK_refl sc st, fun _ h => by cases h⟩

theorem tame_appendPrelude {sc : SchemaObj} (e : PEntry) :
    Tame sc (appendPrelude e) :=
  fun st => ⟨stepOK_refl sc st, fun _ h => by cases h⟩

theorem tame_foldlM {α β : Type} {sc : SchemaObj} {f : β → α → M β} :
    (∀ b a, Tame sc (f b a)) → ∀ (l : List α) (b : β),
      Tame sc (l.foldlM f b) := by
  intro hf l
  induction l with
  | nil => intro b; exact tame_pure b
  | cons a rest ih =>
    intro b
    rw [List.foldlM_cons]
    exact tame_bind (hf b a) fun b2 => ih b2

theorem countApp (l : List Nat) (a b : Nat) :
    List.count a (l ++ [b]) = List.count a l + (if a = b then 1 else 0) := by
  by_cases hab : a = b
  · subst hab
    simp [List.count_append]
  · simp [List.count_append, hab]

theorem resolveT_no_conflict (sc : SchemaObj) (t : TypeRef) :
    ¬ resolveT sc t = .error .typeConflict := by
  rcases t with s | i
  · rcases hl : lookupA sc.types s with _ | e <;> simp [resolveT, hl]
  · simp [resolveT]

theorem getStringE_no_conflict (input : ParseInput) :
    ¬ getStringE input = .error .typeConflict := by
  rcases input with s | n
  · simp [getStringE]
  · rcases ht : n.text with _ | t <;> simp [getStringE, ht]

theorem rawString_no_conflict (sc : SchemaObj) (fuel : Nat) (node : Node) :
    ¬ rawString sc fuel node = .error .typeConflict := by
  rcases hn : nsOf node.tag with _ | ns
  · simp [rawString, hn]
  · by_cases hm : ns ∈ sc.rawNamespaces <;> simp [rawString, hn, hm]

theorem tame_markCT {sc : SchemaObj} {aidx : Nat} {alone : Bool}
    (tn : String) (anns : List String) (h : alone = aloneAt sc aidx) :
    Tame sc (markCT aidx alone tn anns) := by
  intro st
  by_cases hm : aidx ∈ st.marks
  · have hr : markCT aidx alone tn anns st = .ok () st := by
      show (if aidx ∈ st.marks then EStateM.Result.ok () st
        else EStateM.Result.ok () { st with
          marks := aidx :: st.marks,
          prelude := if alone then st.prelude
                     else st.prelude ++ [.classD tn anns],
          classLog := if alone then st.classLog
                      else st.classLog ++ [aidx] }) = EStateM.Result.ok () st
      rw [if_pos hm]
    rw [hr]
    exact ⟨stepOK_refl sc st, fun _ h2 => by cases h2⟩
  · rcases halone : alone
    · -- alone = false: the Class is appended and logged
      have hr : markCT aidx false tn anns st = .ok () { st with
          marks := aidx :: st.marks,
          prelude := st.prelude ++ [.classD tn anns],
          classLog := st.classLog ++ [aidx] } := by
        show (if aidx ∈ st.marks then EStateM.Result.ok () st
          else EStateM.Result.ok () { st with
            marks := aidx :: st.marks,
            prelude := if false then st.prelude
                       else st.prelude ++ [.classD tn anns],
            classLog := if false then st.classLog
                        else st.classLog ++ [aidx] }) = _
        rw [if_neg hm]
        rfl
      rw [hr]
      refine ⟨⟨fun i hi => List.mem_cons_of_mem _ hi, fun id => ?_⟩,
        fun _ h2 => by cases h2⟩
      by_cases hid : id = aidx
      · subst hid
        refine ⟨fun hin => absurd hin hm, ?_,
          fun _ => List.mem_cons_self _ _, fun hal => ?_⟩
        · show List.count id (st.classLog ++ [id]) ≤
            List.count id st.classLog + 1
          rw [countApp, if_pos rfl]
        · rw [← h, halone] at hal
          cases hal
      · have hq : List.count id (st.classLog ++ [aidx]) =
            List.count id st.classLog := by
          rw [countApp, if_neg hid, Nat.add_zero]
        refine ⟨fun _ => hq, ?_, fun hlt => absurd hq (Nat.ne_of_lt hlt).symm,
          fun _ => hq⟩
        show List.count id (st.classLog ++ [aidx]) ≤
          List.count id st.classLog + 1
        rw [hq]
        exact Nat.le_succ _
    · -- alone = true: marked but nothing appended or logged
      have hr : markCT aidx true tn anns st = .ok () { st with
          marks := aidx :: st.marks } := by
        show (if aidx ∈ st.marks then EStateM.Result.ok () st
          else EStateM.Result.ok () { st with
            marks := aidx :: st.marks,
            prelude := if true then st.prelude
                       else st.prelude ++ [.classD tn anns],
            classLog := if true then st.classLog
                        else st.classLog ++ [aidx] }) = _
        rw [if_neg hm]
        rfl
      rw [hr]
      refine ⟨⟨fun i hi => List.mem_cons_of_mem _ hi, fun id => ?_⟩,
        fun _ h2 => by cases h2⟩
      exact ⟨fun _ => rfl, Nat.le_succ _,
        fun h2 => absurd rfl (Nat.ne_of_lt h2).symm, fun _ => rfl⟩

theorem tame_markST {sc : SchemaObj} {aidx : Nat} (name : Option String)
    (anns : List String) (h : aloneAt sc aidx = false) :
    Tame sc (markST aidx name anns) := by
  intro st
  rcases name with _ | n
  · exact ⟨stepOK_refl sc st, fun _ h2 => by cases h2⟩
  · by_cases hm : aidx ∈ st.marks
    · have hr : markST aidx (some n) anns st = .ok () st := by
        show (if aidx ∈ st.marks then EStateM.Result.ok () st
          else EStateM.Result.ok () { st with
            marks := aidx :: st.marks,
            prelude := st.prelude ++ [.classD n anns],
            classLog := st.classLog ++ [aidx] }) = EStateM.Result.ok () st
        rw [if_pos hm]
      rw [hr]
      exact ⟨stepOK_refl sc st, fun _ h2 => by cases h2⟩
    · have hr : markST aidx (some n) anns st = .ok () { st with
          marks := aidx :: st.marks,
          prelude := st.prelude ++ [.classD n anns],
          classLog := st.classLog ++ [aidx] } := by
        show (if aidx ∈ st.marks then EStateM.Result.ok () st
          else EStateM.Result.ok () { st with
            marks := aidx :: st.marks,
            prelude := st.prelude ++ [.classD n anns],
            classLog := st.classLog ++ [aidx] }) = _
        rw [if_neg hm]
      rw [hr]
      refine ⟨⟨fun i hi => List.mem_cons_of_mem _ hi, fun id => ?_⟩,
        fun _ h2 => by cases h2⟩
      by_cases hid : id = aidx
      · subst hid
        refine ⟨fun hin => absurd hin hm, ?_,
          fun _ => List.mem_cons_self _ _, fun hal => ?_⟩
        · show List.count id (st.classLog ++ [id]) ≤
            List.count id st.classLog + 1
          rw [countApp, if_pos rfl]
        · rw [h] at hal
          cases hal
      · have hq : List.count id (st.classLog ++ [aidx]) =
            List.count id st.classLog := by
          rw [countApp, if_neg hid, Nat.add_zero]
        refine ⟨fun _ => hq, ?_, fun hlt => absurd hq (Nat.ne_of_lt hlt).symm,
          fun _ => hq⟩
        show List.count id (st.classLog ++ [aidx]) ≤
          List.count id st.classLog + 1
        rw [hq]
        exact Nat.le_succ _

theorem tame_mkIndividualM {sc : SchemaObj} (cfg : Config) (name : String)
    (asserts : List HasA) (type_ : Option String) (anns : List String)
    (ignore : Bool) :
    Tame sc (mkIndividualM cfg name asserts type_ anns ignore) := by
  unfold mkIndividualM
  rcases h : lastIdVal cfg.idAttributes asserts with _ | v
  · exact tame_bind (tame_pure none)
      fun y => tame_bind tame_allocRef fun r => tame_pure _
  · rcases v with ⟨c, w⟩ | i
    · exact tame_bind (tame_pure (some w))
        fun y => tame_bind tame_allocRef fun r => tame_pure _
    · exact tame_bind (tame_throw fun he => by cases he)
        fun y => tame_bind tame_allocRef fun r => tame_pure _

theorem tame_enumGetM {sc : SchemaObj} (cfg : Config) (e : EnumerationObj)
    (name : Option String) (ignore : Bool) :
    Tame sc (enumGetM cfg e name ignore) :=
  tame_mkIndividualM cfg e.value [] name e.annotations ignore

theorem tame_litParse {sc : SchemaObj} (input : ParseInput) :
    Tame sc (litParse input) := by
  unfold litParse
  exact tame_bind (tame_liftE (getStringE_no_conflict input))
    fun v => tame_pure _

theorem tame_restrictionParseM {sc : SchemaObj} (cfg : Config)
    (r : RestrictionObj) (input : ParseInput) :
    Tame sc (restrictionParseM cfg r input) := by
  unfold restrictionParseM
  apply tame_bind (tame_liftE (getStringE_no_conflict input))
  intro s
  rcases h : lookupA r.enumerations s with _ | e
  · exact tame_throw fun he => by cases he
  · exact tame_bind (tame_enumGetM cfg e r.name true) fun i => tame_pure _

theorem tame_attributeParseW {sc : SchemaObj} {ep : EP}
    (hep : ∀ entry input, Tame sc (ep entry input)) (a : AttributeObj)
    (v : String) : Tame sc (attributeParseW ep sc a v) := by
  unfold attributeParseW
  exact tame_bind (tame_liftE (resolveT_no_conflict sc a.type_))
    fun entry => tame_bind (hep entry _) fun p => tame_pure _

theorem tame_attrsFoldW {sc : SchemaObj} {ep : EP}
    (hep : ∀ entry input, Tame sc (ep entry input)) (attrs : List AttributeObj)
    (nodeAttrs : List (String × String)) :
    Tame sc (attrsFoldW ep sc attrs nodeAttrs) := by
  unfold attrsFoldW
  apply tame_foldlM
  intro acc a
  rcases h : lookupA nodeAttrs a.name with _ | v
  · exact tame_pure acc
  · exact tame_bind (tame_attributeParseW hep a v) fun hh => tame_pure _

theorem tame_elementParseW {sc : SchemaObj} {ep : EP} (cfg : Config)
    (hep : ∀ entry input, Tame sc (ep entry input)) (el : ElementObj)
    (node : Node) : Tame sc (elementParseW ep cfg sc el node) := by
  unfold elementParseW
  apply tame_bind (tame_liftE (resolveT_no_conflict sc el.type_))
  intro entry
  apply tame_bind (hep entry _)
  intro parsed
  rcases ha : entryAlone sc entry
  · exact tame_pure _
  · rcases parsed with i | ⟨c, v⟩
    · exact tame_pure _
    · exact tame_throw fun he => by cases he

theorem tame_childrenFoldW {sc : SchemaObj} {ep : EP} (cfg : Config)
    (hep : ∀ entry input, Tame sc (ep entry input))
    (names : List (Option String × ElementObj)) (children : List Node) :
    Tame sc (childrenFoldW ep cfg sc names children) := by
  unfold childrenFoldW
  apply tame_foldlM
  intro acc child
  rcases h : lookupA names (some child.tag) with _ | el
  · exact tame_throw fun he => by cases he
  · apply tame_bind (tame_elementParseW cfg hep el child)
    intro r
    rcases r with hh | l
    · exact tame_pure _
    · exact tame_pure _

theorem tame_anyParseW {sc : SchemaObj} {ep : EP} (fuel : Nat)
    (hep : ∀ entry input, Tame sc (ep entry input)) (a : AnyObj)
    (node : Node) : Tame sc (anyParseW ep fuel sc a node) := by
  unfold anyParseW
  by_cases hns : nsOf node.tag = a.ns
  · rw [if_pos hns]
    apply tame_bind
    · apply tame_tryCatch
      · exact tame_bind (tame_liftE (resolveT_no_conflict sc (.tname node.tag)))
          fun entry => hep entry _
      · intro e he
        rcases e
        · exact tame_throw he
        · exact tame_liftE (rawString_no_conflict sc fuel node)
        · exact absurd rfl he
        · exact tame_throw he
        · exact tame_throw he
        · exact tame_throw he
    · intro v
      exact tame_pure _
  · rw [if_neg hns]
    exact tame_throw fun he => by cases he

theorem tame_seqParseW {sc : SchemaObj} {ep : EP} (fuel : Nat) (cfg : Config)
    (hep : ∀ entry input, Tame sc (ep entry input)) (sq : SeqObj)
    (node : Node) : Tame sc (seqParseW ep fuel cfg sc sq node) := by
  unfold seqParseW
  rcases h : sq.anyO with _ | a
  · exact tame_childrenFoldW cfg hep sq.names node.children
  · exact tame_bind (tame_anyParseW fuel hep a _) fun hh => tame_pure _

theorem tame_choiceParseW {sc : SchemaObj} {ep : EP} (cfg : Config)
    (hep : ∀ entry input, Tame sc (ep entry input)) (c : ChoiceObj)
    (node : Node) : Tame sc (choiceParseW ep cfg sc c node) :=
  tame_childrenFoldW cfg hep c.names node.children

theorem tame_extParseW {sc : SchemaObj} {ep : EP}
    (hep : ∀ entry input, Tame sc (ep entry input)) (ext : ExtObj)
    (node : Node) : Tame sc (extParseW ep sc ext node) := by
  unfold extParseW
  apply tame_bind (tame_attrsFoldW hep ext.attributes node.attrs)
  intro asserts
  apply tame_bind
  · apply tame_tryCatch
    · apply tame_bind (tame_liftE (resolveT_no_conflict sc ext.base))
      intro entry
      apply tame_bind (hep entry _)
      intro parsed
      rcases parsed with i | ⟨c, v⟩
      · exact tame_pure _
      · exact tame_pure _
    · intro e he
      rcases e
      · exact tame_pure _
      · exact tame_throw he
      · exact absurd rfl he
      · exact tame_throw he
      · exact tame_throw he
      · exact tame_throw he
  · intro more
    exact tame_pure _

theorem tame_contentParseW {sc : SchemaObj} {ep : EP} (fuel : Nat)
    (cfg : Config) (hep : ∀ entry input, Tame sc (ep entry input))
    (c : CTContent) (node : Node) :
    Tame sc (contentParseW ep fuel cfg sc c node) := by
  rcases c with sq | e | ch
  · exact tame_seqParseW fuel cfg hep sq node
  · exact tame_extParseW hep e node
  · exact tame_choiceParseW cfg hep ch node

theorem tame_ctParseW {sc : SchemaObj} {ep : EP} (fuel : Nat) (cfg : Config)
    (hep : ∀ entry input, Tame sc (ep entry input)) (aidx : Nat)
    (input : ParseInput) : Tame sc (ctParseW ep fuel cfg sc aidx input) := by
  unfold ctParseW
  rcases input with s | node
  · exact tame_throw fun he => by cases he
  · rcases h : arenaGet sc aidx with _ | ct2
    · exact tame_throw fun he => by cases he
    · rcases ct2 with ct | sto
      · apply tame_bind (tame_markCT _ _ (by simp only [aloneAt, h]))
        intro u
        apply tame_bind (tame_attrsFoldW hep ct.attributes node.attrs)
        intro as1
        rcases hc : ct.content with _ | c
        · exact tame_bind (tame_pure [])
            fun as2 => tame_mkIndividualM cfg _ _ _ _ _
        · exact tame_bind (tame_contentParseW fuel cfg hep c node)
            fun as2 => tame_mkIndividualM cfg _ _ _ _ _
      · exact tame_throw fun he => by cases he

theorem tame_stParseW {sc : SchemaObj} (cfg : Config) (aidx : Nat)
    (input : ParseInput) : Tame sc (stParseW cfg sc aidx input) := by
  unfold stParseW
  rcases h : arenaGet sc aidx with _ | t2
  · exact tame_throw fun he => by cases he
  · rcases t2 with ct | sto
    · exact tame_throw fun he => by cases he
    · apply tame_bind (tame_markST sto.name sto.annotations
        (by simp only [aloneAt, h]))
      intro u
      exact tame_restrictionParseM cfg sto.restriction input

theorem tame_entryParse {sc : SchemaObj} (n : Nat) (cfg : Config)
    (entry : RegEntry) (input : ParseInput) :
    Tame sc (entryParse n cfg sc entry input) := by
  induction n generalizing entry input with
  | zero => exact tame_throw fun he => by cases he
  | succ n ih =>
    rcases entry with _ | i
    · exact tame_litParse input
    · show Tame sc (match arenaGet sc i with
        | some (.complex _) => do
          let ind ← ctParseW (entryParse n cfg sc) n cfg sc i input
          pure (.ind ind)
        | some (.simple _) => stParseW cfg sc i input
        | none => throw .keyErr)
      rcases h : arenaGet sc i with _ | t2
      · exact tame_throw fun he => by cases he
      · rcases t2 with ct | sto
        · exact tame_bind (tame_ctParseW n cfg (fun e inp => ih e inp) i input)
            fun ind => tame_pure _
        · exact tame_stParseW cfg i input

theorem tame_choiceParse {sc : SchemaObj} (n : Nat) (cfg : Config)
    (c : ChoiceObj) (node : Node) : Tame sc (choiceParse n cfg sc c node) :=
  tame_choiceParseW cfg (fun e i => tame_entryParse n cfg e i) c node

theorem tame_schemaParse {sc : SchemaObj} (n : Nat) (cfg : Config)
    (doc : Node) : Tame sc (schemaParse n cfg sc doc) := by
  unfold schemaParse
  rcases h : lookupA sc.elements doc.tag with _ | el
  · exact tame_throw fun he => by cases he
  · exact tame_bind
      (tame_elementParseW cfg (fun e i => tame_entryParse n cfg e i) el doc)
      fun r => tame_bind tame_get fun s => tame_pure _

theorem tame_parseDocs {sc : SchemaObj} (n : Nat) (cfg : Config)
    (docs : List Node) : Tame sc (parseDocs n cfg sc docs) := by
  unfold parseDocs
  apply tame_foldlM
  intro b d
  exact tame_bind (tame_schemaParse n cfg d) fun r => tame_pure _

/-- C6: a Choice whose branches bind the same child tag to two different
types fails to compile with the type-conflict error (`_merge`'s assertion,
raised while `Choice.__init__` merges the branch tables, i.e. before any
document is parsed); and instance parsing through a compiled choice — or any
other parse entry point — can never raise the type-conflict error, since
`_merge` is only called from `Sequence.__init__`/`Choice.__init__` at
schema-compile time. -/
theorem C6_conflict_compile_only :
    (∀ (sequences : List SeqObj) (elements : List ElementObj) (ns : String),
      (∀ sq ∈ sequences, nodupKeys sq.names) →
      (∃ t e1 e2, (t, e1) ∈ choiceBindings sequences elements ns ∧
        (t, e2) ∈ choiceBindings sequences elements ns ∧
        ¬ e1.type_ = e2.type_) →
      mkChoice sequences elements ns = .error .typeConflict) ∧
    (∀ (n : Nat) (cfg : Config) (sc : SchemaObj) (c : ChoiceObj) (node : Node)
      (st st2 : PState),
      ¬ choiceParse n cfg sc c node st = .error .typeConflict st2) := by
  constructor
  · intro sequences elements ns hnd hconf
    rcases h : mkChoice sequences elements ns with e | ch
    · rw [mkChoice_only_conflict h]
    · rcases hconf with ⟨t, e1, e2, h1, h2, hne⟩
      exact absurd (mkChoice_consistent hnd h t e1 e2 h1 h2) hne
  · intro n cfg sc c node st st2
    exact (tame_choiceParse n cfg c node st).2 st2

/-- C6 witness: two branches bind tag `A` to the distinct types `T1`/`T2`
and compilation yields the type-conflict error; a concrete instance parse
does not produce the type-conflict error. -/
theorem C6_witness :
    mkChoice [] [elA1, elA2] "urn:test" = .error .typeConflict ∧
    ¬ choiceParse 3 mainConfig scItemID ⟨[], [], [], false⟩ blankNode st0 =
      .error .typeConflict st0 := by
  constructor
  · apply C6_conflict_compile_only.1 [] [elA1, elA2] "urn:test"
    · intro sq hsq
      cases hsq
    · exact ⟨addNamespace (some "A") "urn:test", elA1, elA2,
        List.Mem.head _, List.Mem.tail _ (List.Mem.head _), by decide⟩
  · exact C6_conflict_compile_only.2 3 mainConfig scItemID ⟨[], [], [], false⟩
      blankNode st0 st0

/-- C7: over any number of instance parses against a compiled schema,
starting from a state with an empty Class-append log, each type object
(arena index) has its Class declaration appended to the prelude at most
once — the ghost `classLog` records one entry per `classD` append of the
`marked` guards — and a type object whose `alone` flag is true never has a
Class declaration appended at all. -/
theorem C7_class_declared_at_most_once (n : Nat) (cfg : Config)
    (sc : SchemaObj) (docs : List Node) (st : PState)
    (h : st.classLog = []) :
    ∀ id : Nat,
      (stateOf (parseDocs n cfg sc docs st)).classLog.count id ≤ 1 ∧
      (aloneAt sc id = true →
        (stateOf (parseDocs n cfg sc docs st)).classLog.count id = 0) := by
  intro id
  rcases (tame_parseDocs n cfg docs st).1 with ⟨hmono, hper⟩
  rcases hper id with ⟨a, b, c, d⟩
  constructor
  · refine le_trans b ?_
    rw [h]
    exact Nat.le_refl 1
  · intro hal
    rw [d hal, h]
    rfl

/-- C7 witness: a concrete two-document run against the compiled Item
schema from the fresh state. -/
theorem C7_witness :
    st0.classLog = [] ∧
    ((stateOf (parseDocs 5 mainConfig scItemID [itemDocID, itemDocID]
        st0)).classLog.count 0 ≤ 1 ∧
      (aloneAt scItemID 0 = true →
        (stateOf (parseDocs 5 mainConfig scItemID [itemDocID, itemDocID]
          st0)).classLog.count 0 = 0)) :=
  ⟨rfl, C7_class_declared_at_most_once 5 mainConfig scItemID
    [itemDocID, itemDocID] st0 rfl 0⟩

end M2O
